import Mathlib

-- Verification of the OZIP converter core (src/code.py): the cipher trial
-- engine and container codec of `decrypt_ozip` / `encrypt_to_ozip`, and the
-- block-transfer codec of `parse_transfer_list`, `convert_dat_to_img` and
-- `convert_img_to_dat`.  Byte strings are modelled as `List Nat`, text as
-- `List Char` (ASCII model of Python `str`), files as the list of their
-- bytes.  The AES-128-ECB block permutation is kept abstract (a parameter
-- `B` on 16-byte blocks); everything around it — chunking, PKCS#7 padding,
-- key trials — is embedded from the source.

set_option maxHeartbeats 1000000

namespace Ozip

-- ===================================================================
-- Python string primitives (ASCII model)
-- ===================================================================

/-- Whitespace recognised by Python `str.strip()` (ASCII subset). -/
def pyIsSpace (c : Char) : Bool :=
  decide (c = ' ' ∨ c = '\t' ∨ c = '\n' ∨ c = '\r' ∨ c = '\x0b' ∨ c = '\x0c')

/-- Python `str.strip()` on a list of characters. -/
def pyStrip (l : List Char) : List Char :=
  ((l.dropWhile pyIsSpace).reverse.dropWhile pyIsSpace).reverse

/-- Python `str.split(sep)` with an explicit one-character separator:
splits on every occurrence and keeps empty pieces. -/
def pySplitOn (sep : Char) : List Char → List (List Char)
  | [] => [[]]
  | c :: rest =>
    if c = sep then [] :: pySplitOn sep rest
    else
      match pySplitOn sep rest with
      | [] => [[c]]
      | g :: gs => (c :: g) :: gs

/-- Digit run accepted by Python `int()` after the optional sign:
decimal digits with single underscores strictly between digits.
Returns the digit values, most significant first. -/
def uDigitsAux : List Char → Option (List Nat)
  | [] => some []
  | c :: rest =>
    if c.isDigit then (uDigitsAux rest).map (fun ds => (c.toNat - 48) :: ds)
    else if c = '_' then
      match rest with
      | [] => none
      | c2 :: _ => if c2.isDigit then uDigitsAux rest else none
    else none

/-- Decimal value of a most-significant-first digit list. -/
def uDigitsVal (ds : List Nat) : Nat := ds.foldl (fun a d => 10 * a + d) 0

/-- Unsigned part of Python `int()`: a nonempty digit run that must start
with a digit (so no leading underscore). -/
def uDigitsStart (s : List Char) : Option Nat :=
  match s with
  | [] => none
  | c :: _ => if c.isDigit then (uDigitsAux s).map uDigitsVal else none

/-- Python `int(str)` on ASCII text: strip whitespace, optional sign,
nonempty underscore-separated digit run; `none` models `ValueError`. -/
def pyInt? (s : List Char) : Option Int :=
  if (pyStrip s).head? = some '+' then (uDigitsStart (pyStrip s).tail).map (fun m => (m : Int))
  else if (pyStrip s).head? = some '-' then (uDigitsStart (pyStrip s).tail).map (fun m => -(m : Int))
  else (uDigitsStart (pyStrip s)).map (fun m => (m : Int))

/-- Python `str(n)` for a natural number: decimal digits, no sign. -/
def pyStr (n : Nat) : List Char :=
  if n = 0 then ['0'] else (Nat.digits 10 n).reverse.map Nat.digitChar

/-- Python `f.readlines()` of a text file given as its characters, modulo
the trailing `'\n'` of each line (which `parse_transfer_list` strips
anyway): split on newlines, dropping the empty piece a final newline
produces. -/
def pyReadLines (s : List Char) : List (List Char) :=
  if s = [] then []
  else if s.getLast? = some '\n' then (pySplitOn '\n' s).dropLast
  else pySplitOn '\n' s

/-- A text file written line by line: each line followed by a newline. -/
def joinNL (ls : List (List Char)) : List Char :=
  (ls.map (fun l => l ++ ['\n'])).flatten

-- ===================================================================
-- Transfer-list parser (`parse_transfer_list`, code.py lines 615-683)
-- ===================================================================

/-- A parsed transfer-list command: the command word (`"new"`, `"erase"`
or `"zero"`) and its (start, end) block ranges, as Python ints. -/
abbrev TransferCmd := List Char × List (Int × Int)

/-- The commands recognised by the parser, `['erase', 'new', 'zero']`. -/
def cmdKeywords : List (List Char) := ["erase".data, "new".data, "zero".data]

/-- The per-pair loop of `parse_transfer_list`: an `int()` failure drops
only the offending (start, end) pair — the `continue` sits in the inner
`for j` loop — and the remaining pairs still go through. -/
def parsePairs : List (List Char) → List (Int × Int)
  | a :: b :: rest =>
    match pyInt? a, pyInt? b with
    | some s, some e => (s, e) :: parsePairs rest
    | _, _ => parsePairs rest
  | _ => []

/-- One iteration of the command-line loop of `parse_transfer_list`:
`none` means the line is skipped (blank, comment, fewer than two
space-separated parts, unknown command word, or an odd-length range
list). -/
def parseLine (line : List Char) : Option TransferCmd :=
  if pyStrip line = [] then none
  else if (pyStrip line).head? = some '#' then none
  else
    match pySplitOn ' ' (pyStrip line) with
    | p0 :: p1 :: _ =>
      if p0 ∈ cmdKeywords then
        if (pySplitOn ',' p1).length % 2 ≠ 0 then none
        else some (p0, parsePairs (pySplitOn ',' p1))
      else none
    | _ => none

/-- `parse_transfer_list` (code.py lines 615-683).  Line 0 is the version
(`int()` failure falls back to version 1; the redundant `isdigit()`
re-check of the source cannot succeed for ASCII text once `int()` has
failed).  For version ≥ 2 the three header lines (new_blocks,
stash_entries, max_blocks) are consumed unread.  The remaining lines go
through `parseLine` in file order. -/
def parse_transfer_list (text : List Char) : List TransferCmd :=
  if pyReadLines text = [] then []
  else
    (if 2 ≤ (pyInt? ((pyReadLines text).headD [])).getD 1
      then (pyReadLines text).tail.drop 3
      else (pyReadLines text).tail).filterMap parseLine

-- ===================================================================
-- Block image materializer (`convert_dat_to_img`, code.py lines 569-613)
-- ===================================================================

/-- The fixed block size, 4096 bytes. -/
def blockSize : Nat := 4096

/-- State of the materializer: the output image file's bytes and the
single shared read cursor into the block-data source. -/
structure FileState where
  file : List Nat
  cursor : Nat

/-- Zero-fill a file up to byte offset `pos` (the gap a seek past the
end leaves behind once something is written there). -/
def fileExtend (f : List Nat) (pos : Nat) : List Nat :=
  if f.length < pos then f ++ List.replicate (pos - f.length) 0 else f

/-- Writing `data` at byte offset `pos` of file `f`, with POSIX
semantics: writing past the end fills the gap with zero bytes and
extends the file; a zero-length write changes nothing. -/
def fileWrite (f : List Nat) (pos : Nat) (data : List Nat) : List Nat :=
  if data = [] then f
  else (fileExtend f pos).take pos ++ data ++ (fileExtend f pos).drop (pos + data.length)

/-- `dat_file.read(block_size)` at cursor `cur`: up to `blockSize` bytes. -/
def readBlockRaw (dat : List Nat) (cur : Nat) : List Nat :=
  (dat.drop cur).take blockSize

/-- The block a `new` command writes: the bytes read from the source at
the cursor, zero-padded to `blockSize` when the source ran short
(code.py lines 602-605). -/
def paddedBlock (dat : List Nat) (cur : Nat) : List Nat :=
  if (readBlockRaw dat cur).length < blockSize then
    readBlockRaw dat cur ++ List.replicate (blockSize - (readBlockRaw dat cur).length) 0
  else readBlockRaw dat cur

/-- The block-copy loop of a `new` range (code.py lines 601-606): read a
block from the source cursor, zero-pad it to `blockSize` if the source
ran short, write it, advance write position by a block and the cursor by
the bytes actually read. -/
def applyNewBlocks (dat : List Nat) : Nat → Nat → List Nat → Nat → FileState
  | _, 0, f, cur => ⟨f, cur⟩
  | pos, k + 1, f, cur =>
    applyNewBlocks dat (pos + blockSize) k (fileWrite f pos (paddedBlock dat cur))
      (cur + (readBlockRaw dat cur).length)

/-- Error message of a negative `f.seek`. -/
def seekErrMsg : List Char := "negative seek value".data

/-- The range loop of a `new` command: `img_file.seek(start*block_size)`
(fatal for a negative start), then `end - start` block copies
(`range` of a non-positive count is empty). -/
def runNewRanges (dat : List Nat) : List (Int × Int) → FileState → Except (List Char) FileState
  | [], st => .ok st
  | (s, e) :: rs, st =>
    if s < 0 then .error seekErrMsg
    else runNewRanges dat rs (applyNewBlocks dat (s.toNat * blockSize) (e - s).toNat st.file st.cursor)

/-- The range loop of an `erase`/`zero` command (code.py lines 607-611):
seek and overwrite the range with zero bytes (an empty write for a
non-positive length). -/
def runZeroRanges : List (Int × Int) → FileState → Except (List Char) FileState
  | [], st => .ok st
  | (s, e) :: rs, st =>
    if s < 0 then .error seekErrMsg
    else runZeroRanges rs ⟨fileWrite st.file (s.toNat * blockSize) (List.replicate ((e - s).toNat * blockSize) 0), st.cursor⟩

/-- Dispatch of one command (code.py lines 595-611); commands other than
`new`/`erase`/`zero` never reach here from the parser and do nothing. -/
def runCmd (dat : List Nat) (c : TransferCmd) (st : FileState) : Except (List Char) FileState :=
  if c.1 = "new".data then runNewRanges dat c.2 st
  else if c.1 = "erase".data ∨ c.1 = "zero".data then runZeroRanges c.2 st
  else .ok st

/-- The command loop of `convert_dat_to_img`, in document order. -/
def runCmds (dat : List Nat) : List TransferCmd → FileState → Except (List Char) FileState
  | [], st => .ok st
  | c :: cs, st =>
    match runCmd dat c st with
    | .ok st2 => runCmds dat cs st2
    | .error e => .error e

/-- The inner fold of the `max_block` computation over one command's
ranges: `if end > max_block: max_block = end`. -/
def maxEndRanges (rs : List (Int × Int)) (acc : Int) : Int :=
  rs.foldl (fun a r => if r.2 > a then r.2 else a) acc

/-- One step of the `max_block` fold over the command list. -/
def maxStep (a : Int) (c : TransferCmd) : Int :=
  if c.1 ∈ cmdKeywords then maxEndRanges c.2 a else a

/-- `max_block` (code.py lines 579-584): largest range end over all
`new`/`erase`/`zero` commands, starting from 0. -/
def maxBlockOf (cs : List TransferCmd) : Int :=
  cs.foldl maxStep 0

/-- Block `b` lies in the half-open range `r` (block units). -/
def rangeCovers (r : Int × Int) (b : Nat) : Prop :=
  r.1 ≤ (b : Int) ∧ (b : Int) < r.2

/-- Some range of command `c` writes block `b`. -/
def coveredCmd (b : Nat) (c : TransferCmd) : Prop :=
  c.1 ∈ cmdKeywords ∧ ∃ r ∈ c.2, rangeCovers r b

/-- Some command of `cs` writes block `b`. -/
def coveredBlock (b : Nat) (cs : List TransferCmd) : Prop :=
  ∃ c ∈ cs, coveredCmd b c

/-- `convert_dat_to_img` (code.py lines 569-613): parse the transfer
list, fail if no valid command was found, pre-allocate
`max_block * block_size` zero bytes (`truncate`), then run the commands.
The cancellation flag is not modelled (taken as never set). -/
def convert_dat_to_img (text : List Char) (dat : List Nat) : Except (List Char) (List Nat) :=
  if parse_transfer_list text = [] then .error "No valid commands found in transfer list".data
  else
    match runCmds dat (parse_transfer_list text)
        ⟨List.replicate ((maxBlockOf (parse_transfer_list text)).toNat * blockSize) 0, 0⟩ with
    | .ok st => .ok st.file
    | .error e => .error e

-- ===================================================================
-- Transfer-list writer (`convert_img_to_dat`, code.py lines 685-711)
-- ===================================================================

/-- The block count `convert_img_to_dat` declares,
`total_blocks = (img_size + block_size - 1) // block_size`. -/
def totalBlocksOf (img : List Nat) : Nat := (img.length + blockSize - 1) / blockSize

/-- `convert_img_to_dat` (code.py lines 685-711): the transfer-list text
written line by line — version 4, `total_blocks`, stash entries 0, max
blocks 0, then the single `new 0,total_blocks` command — and the dat
stream, a byte-identical copy of the image. -/
def convert_img_to_dat (img : List Nat) : List Char × List Nat :=
  ("4\n".data ++ pyStr (totalBlocksOf img) ++ "\n".data ++ "0\n".data ++ "0\n".data
    ++ "new 0,".data ++ pyStr (totalBlocksOf img) ++ "\n".data, img)

-- ===================================================================
-- Cipher trial engine and container codec
-- (`decrypt_ozip` lines 452-533, `encrypt_to_ozip` lines 748-794)
-- ===================================================================

/-- The fixed OZIP header size, 0x1050 bytes. -/
def headerSize : Nat := 0x1050

/-- The first four bytes of a ZIP file, `b'PK\x03\x04'`, used to
validate a trial decryption. -/
def zipMagicBytes : List Nat := [0x50, 0x4B, 0x03, 0x04]

/-- The 12-byte container magic `b'OPPOENCRYPT!'`. -/
def oppoMagicBytes : List Nat := "OPPOENCRYPT!".data.map Char.toNat

/-- The static ordered key registry `KEYS` (code.py lines 46-94). -/
def KEYS : List String := [
  "d6eecf0ae5acd4e0e9fe522de7ce381e",
  "d6eccf0ae5acd4e0e92e522de7c1381e",
  "d6dccf0ad5acd4e0292e522db7c1381e",
  "d7dcce1ad4afdce2393e5161cbdc4321",
  "d7dbce2ad4addce1393e5521cbdc4321",
  "d7dbce1ad4afdce1393e5121cbdc4321",
  "d4d2cd61d4afdce13b5e01221bd14d20",
  "261cc7131d7c1481294e532db752381e",
  "1ca21e12271335ae33ab81b2a7b14622",
  "d4d2ce11d4afdce13b3e0121cbdc4321",
  "1c4c1ea3a12531ae491b21bb31613c11",
  "acaa1e12a71431ce4a1b21bba1c1c6a2",
  "D6EECF0AE5ACD4E0E9FE522DE7CE381E",
  "D6ECCF0AE5ACD4E0E92E522DE7C1381E",
  "D6DCCF0AD5ACD4E0292E522DB7C1381E",
  "D7DCCE1AD4AFDCE2393E5161CBDC4321",
  "D7DBCE2AD4ADDCE1393E5521CBDC4321",
  "D7DBCE1AD4AFDCE1393E5121CBDC4321",
  "D4D2CD61D4AFDCE13B5E01221BD14D20",
  "261CC7131D7C1481294E532DB752381E",
  "1CA21E12271335AE33AB81B2A7B14622",
  "D4D2CE11D4AFDCE13B3E0121CBD14D20",
  "1C4C1EA3A12531AE491B21BB31613C11",
  "1C4C1EA3A12531AE4A1B21BB31C13C21",
  "1C4A11A3A12513AE441B23BB31513121",
  "1C4A11A3A12589AE441A23BB31517733",
  "1C4A11A3A22513AE541B53BB31513121",
  "2442CE821A4F352E33AE81B22BC1462E",
  "14C2CD6214CFDC2733AE81B22BC1462C",
  "1E38C1B72D522E29E0D4ACD50ACFDCD6",
  "12341EAAC4C123CE193556A1BBCC232D",
  "2143DCCB21513E39E1DCAFD41ACEDBD7",
  "2D23CCBBA1563519CE23C1C4AA1E3412",
  "172B3E14E46F3CE13E2B5121CBDC4321",
  "ACAA1E12A71431CE4A1B21BBA1C1C6A2",
  "ACAC1E13A72531AE4A1B22BB31C1CC22",
  "1C4411A3A12533AE441B21BB31613C11",
  "1C4416A8A42717AE441523B336513121",
  "55EEAA33112133AE441B23BB31513121",
  "ACAC1E13A12531AE4A1B21BB31C13C21",
  "ACAC1E13A72431AE4A1B22BBA1C1C6A2",
  "12CAC11211AAC3AEA2658690122C1E81",
  "1CA21E12271435AE331B81BBA7C14612",
  "D1DACF24351CE428A9CE32ED87323216",
  "A1CC75115CAECB890E4A563CA1AC67C8",
  "2132321EA2CA86621A11241ABA512722",
  "22A21E821743E5EE33AE81B227B1462E"]

/-- The 16 KiB chunk size both cipher loops use, `0x4000`. -/
def cipherChunkSize : Nat := 0x4000

/-- The chunking both cipher loops perform: successive reads of
`min(0x4000, remaining)` bytes.  Structural fuel (bounded by the input
length, each step consumes at least one byte) keeps the definition
kernel-reducible. -/
def chunksAux : Nat → List Nat → List (List Nat)
  | 0, _ => []
  | _, [] => []
  | fuel + 1, d => d.take cipherChunkSize :: chunksAux fuel (d.drop cipherChunkSize)

/-- The list of raw chunks the cipher loops read from a stream. -/
def chunkStream (d : List Nat) : List (List Nat) := chunksAux d.length d

/-- `Crypto.Util.Padding.pad(data, 16)` with the default pkcs7 style:
append `n = 16 - len % 16` bytes, each of value `n`. -/
def pkcs7pad (data : List Nat) : List Nat :=
  data ++ List.replicate (16 - data.length % 16) (16 - data.length % 16)

/-- `if len(chunk) % 16 != 0: chunk = pad(chunk, 16)` — the guard both
loops place in front of the cipher call (code.py lines 497-498 and
781-782). -/
def padIfNeeded (chunk : List Nat) : List Nat :=
  if chunk.length % 16 ≠ 0 then pkcs7pad chunk else chunk

/-- The chunks actually handed to `cipher.decrypt` / `cipher.encrypt`:
the raw chunks, the trailing partial one padded. -/
def fedChunks (d : List Nat) : List (List Nat) := (chunkStream d).map padIfNeeded

/-- AES-ECB over an abstract 16-byte block permutation `B`: apply `B` to
each 16-byte block independently, no chaining, no IV.  Only ever used on
inputs whose length is a multiple of 16.  Fueled like `chunksAux`. -/
def ecbAux (B : List Nat → List Nat) : Nat → List Nat → List Nat
  | 0, _ => []
  | _, [] => []
  | fuel + 1, d => B (d.take 16) ++ ecbAux B fuel (d.drop 16)

/-- Independent-block cipher mode over block permutation `B`. -/
def ecb (B : List Nat → List Nat) (d : List Nat) : List Nat := ecbAux B d.length d

/-- The whole chunked cipher loop: what `decrypt_ozip` writes to its
temporary file for one key, and what `encrypt_to_ozip` writes after the
header — chunk, pad the trailing partial chunk, run the block cipher on
each chunk, concatenate. -/
def processStream (B : List Nat → List Nat) (d : List Nat) : List Nat :=
  ((fedChunks d).map (ecb B)).flatten

/-- Errors of `decrypt_ozip`: the too-small check and key exhaustion. -/
inductive OzipError
  | tooSmall
  | keyExhausted
deriving DecidableEq

/-- The key-trial loop of `decrypt_ozip` (code.py lines 467-533), over an
abstract per-key block decryption `B`: decrypt the body for each key in
registry order, accept the first whose plaintext starts with the ZIP
magic, and fail with `keyExhausted` when the registry runs out. -/
def tryKeys (B : String → List Nat → List Nat) (body : List Nat) :
    List String → Except OzipError (String × List Nat)
  | [] => .error .keyExhausted
  | k :: ks =>
    if (processStream (B k) body).take 4 = zipMagicBytes
    then .ok (k, processStream (B k) body)
    else tryKeys B body ks

/-- `decrypt_ozip` (code.py lines 452-533): fail with `tooSmall` when the
input is shorter than the 0x1050-byte header; read the 12-byte magic but
never act on it (the check is commented out in the source); trial-decrypt
the body after the header with each registry key in order.  Returns the
winning key and the decrypted bytes.  Cancellation is not modelled. -/
def decrypt_ozip (B : String → List Nat → List Nat) (file : List Nat) :
    Except OzipError (String × List Nat) :=
  if file.length < headerSize then .error .tooSmall
  else tryKeys B (file.drop headerSize) KEYS

/-- `encrypt_to_ozip` (code.py lines 748-794), over an abstract block
encryption `B` for the cached key: the 12-byte magic, zero padding to the
0x1050-byte header size, then the chunked-and-padded ciphertext. -/
def encrypt_to_ozip (B : List Nat → List Nat) (zipData : List Nat) : List Nat :=
  oppoMagicBytes ++ List.replicate (headerSize - 12) 0 ++ processStream B zipData

-- ===================================================================
-- Toolbox: getD on appends, takes, drops and replicates
-- ===================================================================

lemma getD_out {l : List Nat} {i : Nat} (h : l.length ≤ i) (d : Nat) :
    l.getD i d = d := by
  rw [List.getD_eq_getElem?_getD, List.getElem?_eq_none h]
  rfl

lemma getD_append_left {a : List Nat} (b : List Nat) {i : Nat} (h : i < a.length) (d : Nat) :
    (a ++ b).getD i d = a.getD i d := by
  simp [List.getD_eq_getElem?_getD, List.getElem?_append, h]

lemma getD_append_right {a : List Nat} (b : List Nat) {i : Nat} (h : a.length ≤ i) (d : Nat) :
    (a ++ b).getD i d = b.getD (i - a.length) d := by
  simp [List.getD_eq_getElem?_getD, List.getElem?_append_right h]

lemma getD_drop (l : List Nat) (n i : Nat) (d : Nat) :
    (l.drop n).getD i d = l.getD (n + i) d := by
  simp [List.getD_eq_getElem?_getD, List.getElem?_drop]

lemma getD_take {l : List Nat} {n i : Nat} (h : i < n) (d : Nat) :
    (l.take n).getD i d = l.getD i d := by
  simp [List.getD_eq_getElem?_getD, List.getElem?_take, h]

lemma getD_replicate_zero (n i : Nat) : (List.replicate n (0 : Nat)).getD i 0 = 0 := by
  rw [List.getD_eq_getElem?_getD, List.getElem?_replicate]
  split <;> rfl

lemma list_eq_of_getD {l₁ l₂ : List Nat} (hlen : l₁.length = l₂.length)
    (h : ∀ i, i < l₁.length → l₁.getD i 0 = l₂.getD i 0) : l₁ = l₂ := by
  refine List.ext_getElem hlen ?_
  intro n h₁ h₂
  have hn := h n h₁
  rwa [List.getD_eq_getElem?_getD, List.getD_eq_getElem?_getD,
    List.getElem?_eq_getElem h₁, List.getElem?_eq_getElem h₂] at hn

-- ===================================================================
-- Lemmas about fileExtend and fileWrite
-- ===================================================================

lemma length_fileExtend (f : List Nat) (pos : Nat) :
    (fileExtend f pos).length = max f.length pos := by
  unfold fileExtend
  split
  · simp only [List.length_append, List.length_replicate]
    omega
  · omega

lemma getD_fileExtend (f : List Nat) (pos i : Nat) :
    (fileExtend f pos).getD i 0 = f.getD i 0 := by
  unfold fileExtend
  split
  · rcases lt_or_ge i f.length with hi | hi
    · exact getD_append_left _ hi 0
    · rw [getD_append_right _ hi 0, getD_out hi 0, getD_replicate_zero]
  · rfl

lemma fileWrite_nil (f : List Nat) (pos : Nat) : fileWrite f pos [] = f := by
  simp [fileWrite]

lemma length_fileWrite (f : List Nat) (pos : Nat) {data : List Nat} (h : data ≠ []) :
    (fileWrite f pos data).length = max f.length (pos + data.length) := by
  unfold fileWrite
  rw [if_neg h]
  have hext := length_fileExtend f pos
  simp only [List.length_append, List.length_take, List.length_drop, hext]
  omega

lemma getD_fileWrite (f : List Nat) (pos : Nat) (data : List Nat) (i : Nat) :
    (fileWrite f pos data).getD i 0 =
      if pos ≤ i ∧ i < pos + data.length then data.getD (i - pos) 0 else f.getD i 0 := by
  by_cases hd : data = []
  · subst hd
    rw [fileWrite_nil]
    have hcond : ¬ (pos ≤ i ∧ i < pos + List.length ([] : List Nat)) := by
      simp only [List.length_nil]
      omega
    rw [if_neg hcond]
  unfold fileWrite
  rw [if_neg hd]
  have hext := length_fileExtend f pos
  have htake : ((fileExtend f pos).take pos).length = pos := by
    simp [List.length_take]; omega
  have hinner : ((fileExtend f pos).take pos ++ data).length = pos + data.length := by
    simp [htake]
  rcases lt_or_ge i pos with hi | hi
  · rw [getD_append_left _ (by omega) 0, getD_append_left _ (by omega) 0,
      getD_take hi 0, getD_fileExtend]
    rw [if_neg (by omega)]
  · rcases lt_or_ge i (pos + data.length) with hi2 | hi2
    · rw [getD_append_left _ (by omega) 0, getD_append_right _ (by omega) 0, htake]
      rw [if_pos ⟨hi, hi2⟩]
    · rw [getD_append_right _ (by omega) 0, hinner, getD_drop]
      have harith : pos + data.length + (i - (pos + data.length)) = i := by omega
      rw [harith, getD_fileExtend]
      rw [if_neg (by omega)]

-- ===================================================================
-- Lemmas about the new-command block-copy loop
-- ===================================================================

lemma length_readBlockRaw (dat : List Nat) (cur : Nat) :
    (readBlockRaw dat cur).length = min blockSize (dat.length - cur) := by
  simp [readBlockRaw]

lemma length_paddedBlock (dat : List Nat) (cur : Nat) :
    (paddedBlock dat cur).length = blockSize := by
  have hraw := length_readBlockRaw dat cur
  unfold paddedBlock
  split
  · simp only [List.length_append, List.length_replicate]
    omega
  · omega

lemma paddedBlock_ne_nil (dat : List Nat) (cur : Nat) : paddedBlock dat cur ≠ [] := by
  intro hh
  have := length_paddedBlock dat cur
  rw [hh] at this
  simp [blockSize] at this

lemma getD_readBlockRaw (dat : List Nat) (cur t : Nat) (ht : t < blockSize) :
    (readBlockRaw dat cur).getD t 0 = dat.getD (cur + t) 0 := by
  unfold readBlockRaw
  rw [getD_take ht, getD_drop]

lemma getD_paddedBlock (dat : List Nat) (cur t : Nat) (ht : t < blockSize) :
    (paddedBlock dat cur).getD t 0 = dat.getD (cur + t) 0 := by
  have hraw := length_readBlockRaw dat cur
  unfold paddedBlock
  split
  · rcases lt_or_ge t (readBlockRaw dat cur).length with h | h
    · rw [getD_append_left _ h 0, getD_readBlockRaw dat cur t ht]
    · rw [getD_append_right _ h 0, getD_replicate_zero]
      have hout : dat.length ≤ cur + t := by omega
      rw [getD_out hout 0]
  · rw [getD_readBlockRaw dat cur t ht]

lemma applyNewBlocks_getD (dat : List Nat) :
    ∀ (k pos : Nat) (f : List Nat) (cur i : Nat),
      ((applyNewBlocks dat pos k f cur).file).getD i 0 =
        if pos ≤ i ∧ i < pos + k * blockSize then dat.getD (cur + (i - pos)) 0
        else f.getD i 0 := by
  intro k
  induction k with
  | zero =>
    intro pos f cur i
    simp only [applyNewBlocks, Nat.zero_mul]
    rw [if_neg (by omega)]
  | succ k ih =>
    intro pos f cur i
    simp only [applyNewBlocks]
    rw [ih, getD_fileWrite, Nat.succ_mul]
    have hraw := length_readBlockRaw dat cur
    have hpb := length_paddedBlock dat cur
    by_cases hA : pos + blockSize ≤ i ∧ i < pos + blockSize + k * blockSize
    · rw [if_pos hA, if_pos (by omega)]
      by_cases hfull : (readBlockRaw dat cur).length = blockSize
      · have harith : cur + (readBlockRaw dat cur).length + (i - (pos + blockSize))
            = cur + (i - pos) := by omega
        rw [harith]
      · have h1 : dat.length ≤ cur + (readBlockRaw dat cur).length + (i - (pos + blockSize)) := by
          omega
        have h2 : dat.length ≤ cur + (i - pos) := by omega
        rw [getD_out h1 0, getD_out h2 0]
    · rw [if_neg hA]
      by_cases hB : pos ≤ i ∧ i < pos + blockSize
      · have hB2 : pos ≤ i ∧ i < pos + (paddedBlock dat cur).length := by rw [hpb]; exact hB
        rw [if_pos hB2, if_pos (by omega), getD_paddedBlock dat cur _ (by omega)]
      · have hB2 : ¬ (pos ≤ i ∧ i < pos + (paddedBlock dat cur).length) := by rw [hpb]; exact hB
        rw [if_neg hB2, if_neg (by omega)]

lemma applyNewBlocks_length (dat : List Nat) :
    ∀ (k pos : Nat) (f : List Nat) (cur : Nat), pos + k * blockSize ≤ f.length →
      ((applyNewBlocks dat pos k f cur).file).length = f.length := by
  intro k
  induction k with
  | zero =>
    intro pos f cur _
    rfl
  | succ k ih =>
    intro pos f cur h
    rw [Nat.succ_mul] at h
    simp only [applyNewBlocks]
    have hpb := length_paddedBlock dat cur
    have hw := length_fileWrite f pos (paddedBlock_ne_nil dat cur)
    rw [ih _ _ _ (by rw [hw, hpb]; omega), hw, hpb]
    omega

lemma applyNewBlocks_cursor (dat : List Nat) :
    ∀ (k pos : Nat) (f : List Nat) (cur : Nat),
      (applyNewBlocks dat pos k f cur).cursor
        = max cur (min (cur + k * blockSize) dat.length) := by
  intro k
  induction k with
  | zero =>
    intro pos f cur
    simp only [applyNewBlocks, Nat.zero_mul]
    omega
  | succ k ih =>
    intro pos f cur
    simp only [applyNewBlocks]
    rw [ih, Nat.succ_mul]
    have hraw := length_readBlockRaw dat cur
    omega

-- ===================================================================
-- Last-writer-wins machinery: two runs of the same commands from states
-- with equal cursors stay in lockstep; covered blocks do not depend on
-- the incoming file contents at all.
-- ===================================================================

lemma runNewRanges_agree (dat : List Nat) :
    ∀ (rs : List (Int × Int)) (st st' : FileState),
      st.cursor = st'.cursor → (∀ r ∈ rs, 0 ≤ r.1) →
      ∃ r1 r2, runNewRanges dat rs st = .ok r1 ∧ runNewRanges dat rs st' = .ok r2 ∧
        r1.cursor = r2.cursor ∧
        (∀ i, st.file.getD i 0 = st'.file.getD i 0 → r1.file.getD i 0 = r2.file.getD i 0) ∧
        (∀ b, (∃ rg ∈ rs, rangeCovers rg b) →
          ∀ i, b * blockSize ≤ i → i < (b + 1) * blockSize →
            r1.file.getD i 0 = r2.file.getD i 0) := by
  intro rs
  induction rs with
  | nil =>
    intro st st' hc _
    exact ⟨st, st', rfl, rfl, hc, fun _ h => h, fun b hb => absurd hb (by simp)⟩
  | cons hd tl ih =>
    rcases hd with ⟨s, e⟩
    intro st st' hc hnn
    have hs : (0 : Int) ≤ s := hnn (s, e) (List.mem_cons_self _ _)
    have hns : ¬ s < 0 := by omega
    simp only [runNewRanges, if_neg hns]
    rw [← hc]
    obtain ⟨r1, r2, h1, h2, hrc, hpres, hcov⟩ :=
      ih (applyNewBlocks dat (s.toNat * blockSize) (e - s).toNat st.file st.cursor)
        (applyNewBlocks dat (s.toNat * blockSize) (e - s).toNat st'.file st.cursor)
        (by rw [applyNewBlocks_cursor, applyNewBlocks_cursor])
        (fun r hr => hnn r (List.mem_cons_of_mem _ hr))
    refine ⟨r1, r2, h1, h2, hrc, ?_, ?_⟩
    · intro i hi
      apply hpres
      rw [applyNewBlocks_getD, applyNewBlocks_getD]
      split
      · rfl
      · exact hi
    · intro b hb i hbi1 hbi2
      rcases hb with ⟨rg, hrg, hcov_r⟩
      rcases List.mem_cons.mp hrg with heq | htl
      · subst heq
        rcases hcov_r with ⟨hsb, hbe⟩
        apply hpres
        rw [applyNewBlocks_getD, applyNewBlocks_getD]
        have hcond : s.toNat * blockSize ≤ i ∧
            i < s.toNat * blockSize + (e - s).toNat * blockSize := by
          constructor
          · exact le_trans (Nat.mul_le_mul_right _ (by omega)) hbi1
          · calc i < (b + 1) * blockSize := hbi2
              _ ≤ (s.toNat + (e - s).toNat) * blockSize :=
                Nat.mul_le_mul_right _ (by omega)
              _ = s.toNat * blockSize + (e - s).toNat * blockSize := Nat.add_mul _ _ _
        rw [if_pos hcond, if_pos hcond]
      · exact hcov b ⟨rg, htl, hcov_r⟩ i hbi1 hbi2

lemma runZeroRanges_agree :
    ∀ (rs : List (Int × Int)) (st st' : FileState),
      st.cursor = st'.cursor → (∀ r ∈ rs, 0 ≤ r.1) →
      ∃ r1 r2, runZeroRanges rs st = .ok r1 ∧ runZeroRanges rs st' = .ok r2 ∧
        r1.cursor = r2.cursor ∧
        (∀ i, st.file.getD i 0 = st'.file.getD i 0 → r1.file.getD i 0 = r2.file.getD i 0) ∧
        (∀ b, (∃ rg ∈ rs, rangeCovers rg b) →
          ∀ i, b * blockSize ≤ i → i < (b + 1) * blockSize →
            r1.file.getD i 0 = r2.file.getD i 0) := by
  intro rs
  induction rs with
  | nil =>
    intro st st' hc _
    exact ⟨st, st', rfl, rfl, hc, fun _ h => h, fun b hb => absurd hb (by simp)⟩
  | cons hd tl ih =>
    rcases hd with ⟨s, e⟩
    intro st st' hc hnn
    have hs : (0 : Int) ≤ s := hnn (s, e) (List.mem_cons_self _ _)
    have hns : ¬ s < 0 := by omega
    simp only [runZeroRanges, if_neg hns]
    obtain ⟨r1, r2, h1, h2, hrc, hpres, hcov⟩ :=
      ih ⟨fileWrite st.file (s.toNat * blockSize) (List.replicate ((e - s).toNat * blockSize) 0), st.cursor⟩
        ⟨fileWrite st'.file (s.toNat * blockSize) (List.replicate ((e - s).toNat * blockSize) 0), st'.cursor⟩
        hc (fun r hr => hnn r (List.mem_cons_of_mem _ hr))
    refine ⟨r1, r2, h1, h2, hrc, ?_, ?_⟩
    · intro i hi
      apply hpres
      simp only [getD_fileWrite]
      split
      · rfl
      · exact hi
    · intro b hb i hbi1 hbi2
      rcases hb with ⟨rg, hrg, hcov_r⟩
      rcases List.mem_cons.mp hrg with heq | htl
      · subst heq
        rcases hcov_r with ⟨hsb, hbe⟩
        apply hpres
        simp only [getD_fileWrite]
        have hcond : s.toNat * blockSize ≤ i ∧
            i < s.toNat * blockSize + (List.replicate ((e - s).toNat * blockSize) (0 : Nat)).length := by
          rw [List.length_replicate]
          constructor
          · exact le_trans (Nat.mul_le_mul_right _ (by omega)) hbi1
          · calc i < (b + 1) * blockSize := hbi2
              _ ≤ (s.toNat + (e - s).toNat) * blockSize :=
                Nat.mul_le_mul_right _ (by omega)
              _ = s.toNat * blockSize + (e - s).toNat * blockSize := Nat.add_mul _ _ _
        rw [if_pos hcond, if_pos hcond]
      · exact hcov b ⟨rg, htl, hcov_r⟩ i hbi1 hbi2

lemma runCmd_agree (dat : List Nat) (c : TransferCmd) (st st' : FileState)
    (hc : st.cursor = st'.cursor) (hnn : ∀ r ∈ c.2, 0 ≤ r.1) :
    ∃ r1 r2, runCmd dat c st = .ok r1 ∧ runCmd dat c st' = .ok r2 ∧
      r1.cursor = r2.cursor ∧
      (∀ i, st.file.getD i 0 = st'.file.getD i 0 → r1.file.getD i 0 = r2.file.getD i 0) ∧
      (∀ b, coveredCmd b c → ∀ i, b * blockSize ≤ i → i < (b + 1) * blockSize →
        r1.file.getD i 0 = r2.file.getD i 0) := by
  unfold runCmd
  by_cases h1 : c.1 = "new".data
  · rw [if_pos h1, if_pos h1]
    obtain ⟨r1, r2, hh1, hh2, hrc, hpres, hcov⟩ := runNewRanges_agree dat c.2 st st' hc hnn
    exact ⟨r1, r2, hh1, hh2, hrc, hpres, fun b hb => hcov b hb.2⟩
  · rw [if_neg h1, if_neg h1]
    by_cases h2 : c.1 = "erase".data ∨ c.1 = "zero".data
    · rw [if_pos h2, if_pos h2]
      obtain ⟨r1, r2, hh1, hh2, hrc, hpres, hcov⟩ := runZeroRanges_agree c.2 st st' hc hnn
      exact ⟨r1, r2, hh1, hh2, hrc, hpres, fun b hb => hcov b hb.2⟩
    · rw [if_neg h2, if_neg h2]
      refine ⟨st, st', rfl, rfl, hc, fun _ h => h, fun b hb => ?_⟩
      rcases hb with ⟨hkw, -⟩
      simp only [cmdKeywords, List.mem_cons, List.not_mem_nil, or_false] at hkw
      rcases hkw with h | h | h
      · exact absurd (Or.inl h) h2
      · exact absurd h h1
      · exact absurd (Or.inr h) h2

lemma runCmds_agree (dat : List Nat) :
    ∀ (cs : List TransferCmd) (st st' : FileState),
      st.cursor = st'.cursor → (∀ c ∈ cs, ∀ r ∈ c.2, 0 ≤ r.1) →
      ∃ r1 r2, runCmds dat cs st = .ok r1 ∧ runCmds dat cs st' = .ok r2 ∧
        r1.cursor = r2.cursor ∧
        (∀ i, st.file.getD i 0 = st'.file.getD i 0 → r1.file.getD i 0 = r2.file.getD i 0) ∧
        (∀ b, coveredBlock b cs → ∀ i, b * blockSize ≤ i → i < (b + 1) * blockSize →
          r1.file.getD i 0 = r2.file.getD i 0) := by
  intro cs
  induction cs with
  | nil =>
    intro st st' hc _
    refine ⟨st, st', rfl, rfl, hc, fun _ h => h, fun b hb => ?_⟩
    rcases hb with ⟨c, hcmem, -⟩
    exact absurd hcmem (List.not_mem_nil c)
  | cons c cs ih =>
    intro st st' hc hnn
    obtain ⟨m1, m2, hm1, hm2, hmc, hmpres, hmcov⟩ :=
      runCmd_agree dat c st st' hc (hnn c (List.mem_cons_self _ _))
    obtain ⟨r1, r2, h1, h2, hrc, hpres, hcov⟩ :=
      ih m1 m2 hmc (fun c2 hc2 => hnn c2 (List.mem_cons_of_mem _ hc2))
    refine ⟨r1, r2, ?_, ?_, hrc, ?_, ?_⟩
    · simp only [runCmds, hm1, h1]
    · simp only [runCmds, hm2, h2]
    · intro i hi
      exact hpres i (hmpres i hi)
    · intro b hb i hbi1 hbi2
      rcases hb with ⟨c2, hc2mem, hc2cov⟩
      rcases List.mem_cons.mp hc2mem with heq | htl
      · subst heq
        exact hpres i (hmcov b hc2cov i hbi1 hbi2)
      · exact hcov b ⟨c2, htl, hc2cov⟩ i hbi1 hbi2

-- ===================================================================
-- Length preservation: when every range fits inside the pre-allocated
-- extent, the runs succeed and never change the file's length.
-- ===================================================================

lemma runNewRanges_length (dat : List Nat) :
    ∀ (rs : List (Int × Int)) (st : FileState),
      (∀ r ∈ rs, 0 ≤ r.1 ∧ r.2.toNat * blockSize ≤ st.file.length) →
      ∃ r1, runNewRanges dat rs st = .ok r1 ∧ r1.file.length = st.file.length := by
  intro rs
  induction rs with
  | nil => exact fun st _ => ⟨st, rfl, rfl⟩
  | cons hd tl ih =>
    rcases hd with ⟨s, e⟩
    intro st h
    obtain ⟨hs, he⟩ := h (s, e) (List.mem_cons_self _ _)
    have hns : ¬ s < 0 := by omega
    simp only [runNewRanges, if_neg hns]
    have hlen : ((applyNewBlocks dat (s.toNat * blockSize) (e - s).toNat st.file st.cursor).file).length
        = st.file.length := by
      by_cases hse : e ≤ s
      · have h0 : (e - s).toNat = 0 := by omega
        rw [h0]
        rfl
      · apply applyNewBlocks_length
        have hsum : s.toNat + (e - s).toNat = e.toNat := by omega
        calc s.toNat * blockSize + (e - s).toNat * blockSize
            = (s.toNat + (e - s).toNat) * blockSize := (Nat.add_mul _ _ _).symm
          _ = e.toNat * blockSize := by rw [hsum]
          _ ≤ st.file.length := he
    obtain ⟨r1, hr1, hr1len⟩ :=
      ih (applyNewBlocks dat (s.toNat * blockSize) (e - s).toNat st.file st.cursor)
        (fun r hr => by
          obtain ⟨ha, hb⟩ := h r (List.mem_cons_of_mem _ hr)
          exact ⟨ha, by rw [hlen]; exact hb⟩)
    exact ⟨r1, hr1, by rw [hr1len, hlen]⟩

lemma runZeroRanges_length :
    ∀ (rs : List (Int × Int)) (st : FileState),
      (∀ r ∈ rs, 0 ≤ r.1 ∧ r.2.toNat * blockSize ≤ st.file.length) →
      ∃ r1, runZeroRanges rs st = .ok r1 ∧ r1.file.length = st.file.length := by
  intro rs
  induction rs with
  | nil => exact fun st _ => ⟨st, rfl, rfl⟩
  | cons hd tl ih =>
    rcases hd with ⟨s, e⟩
    intro st h
    obtain ⟨hs, he⟩ := h (s, e) (List.mem_cons_self _ _)
    have hns : ¬ s < 0 := by omega
    simp only [runZeroRanges, if_neg hns]
    have hlen : (fileWrite st.file (s.toNat * blockSize)
        (List.replicate ((e - s).toNat * blockSize) 0)).length = st.file.length := by
      by_cases hse : e ≤ s
      · have h0 : (e - s).toNat = 0 := by omega
        rw [h0]
        simp only [Nat.zero_mul, List.replicate_zero, fileWrite_nil]
      · have hne : List.replicate ((e - s).toNat * blockSize) (0 : Nat) ≠ [] := by
          have hpos : 0 < (e - s).toNat * blockSize := by
            have h1 : 0 < (e - s).toNat := by omega
            have h2 : 0 < blockSize := by decide
            exact Nat.mul_pos h1 h2
          intro hnil
          have hlen0 := congrArg List.length hnil
          rw [List.length_replicate, List.length_nil] at hlen0
          omega
        rw [length_fileWrite _ _ hne, List.length_replicate]
        have hsum : s.toNat + (e - s).toNat = e.toNat := by omega
        have : s.toNat * blockSize + (e - s).toNat * blockSize ≤ st.file.length := by
          calc s.toNat * blockSize + (e - s).toNat * blockSize
              = (s.toNat + (e - s).toNat) * blockSize := (Nat.add_mul _ _ _).symm
            _ = e.toNat * blockSize := by rw [hsum]
            _ ≤ st.file.length := he
        omega
    obtain ⟨r1, hr1, hr1len⟩ :=
      ih ⟨fileWrite st.file (s.toNat * blockSize)
            (List.replicate ((e - s).toNat * blockSize) 0), st.cursor⟩
        (fun r hr => by
          obtain ⟨ha, hb⟩ := h r (List.mem_cons_of_mem _ hr)
          exact ⟨ha, by rw [hlen]; exact hb⟩)
    exact ⟨r1, hr1, by rw [hr1len]; exact hlen⟩

lemma runCmd_length (dat : List Nat) (c : TransferCmd) (st : FileState)
    (h : ∀ r ∈ c.2, 0 ≤ r.1 ∧ r.2.toNat * blockSize ≤ st.file.length) :
    ∃ r1, runCmd dat c st = .ok r1 ∧ r1.file.length = st.file.length := by
  unfold runCmd
  by_cases h1 : c.1 = "new".data
  · rw [if_pos h1]
    exact runNewRanges_length dat c.2 st h
  · rw [if_neg h1]
    by_cases h2 : c.1 = "erase".data ∨ c.1 = "zero".data
    · rw [if_pos h2]
      exact runZeroRanges_length c.2 st h
    · rw [if_neg h2]
      exact ⟨st, rfl, rfl⟩

lemma runCmds_length (dat : List Nat) :
    ∀ (cs : List TransferCmd) (st : FileState),
      (∀ c ∈ cs, ∀ r ∈ c.2, 0 ≤ r.1 ∧ r.2.toNat * blockSize ≤ st.file.length) →
      ∃ r1, runCmds dat cs st = .ok r1 ∧ r1.file.length = st.file.length := by
  intro cs
  induction cs with
  | nil => exact fun st _ => ⟨st, rfl, rfl⟩
  | cons c cs ih =>
    intro st h
    obtain ⟨m1, hm1, hm1len⟩ := runCmd_length dat c st (h c (List.mem_cons_self _ _))
    obtain ⟨r1, hr1, hr1len⟩ := ih m1 (fun c2 hc2 r hr => by
      obtain ⟨ha, hb⟩ := h c2 (List.mem_cons_of_mem _ hc2) r hr
      exact ⟨ha, by rw [hm1len]; exact hb⟩)
    refine ⟨r1, ?_, by rw [hr1len, hm1len]⟩
    simp only [runCmds, hm1, hr1]

lemma runCmds_append (dat : List Nat) :
    ∀ (a b : List TransferCmd) (st : FileState),
      runCmds dat (a ++ b) st =
        match runCmds dat a st with
        | .ok st2 => runCmds dat b st2
        | .error e => .error e := by
  intro a
  induction a with
  | nil => intro b st; rfl
  | cons c a ih =>
    intro b st
    simp only [List.cons_append, runCmds]
    cases hrc : runCmd dat c st with
    | ok st2 => exact ih b st2
    | error e => rfl

-- ===================================================================
-- Bounds from the max_block fold
-- ===================================================================

lemma le_maxEndRanges (rs : List (Int × Int)) :
    ∀ acc, acc ≤ maxEndRanges rs acc := by
  induction rs with
  | nil => exact fun _ => le_refl _
  | cons r tl ih =>
    intro acc
    show acc ≤ maxEndRanges tl (if r.2 > acc then r.2 else acc)
    refine le_trans ?_ (ih _)
    split
    · omega
    · exact le_refl _

lemma mem_le_maxEndRanges {rs : List (Int × Int)} {r : Int × Int} (h : r ∈ rs) :
    ∀ acc, r.2 ≤ maxEndRanges rs acc := by
  induction rs with
  | nil => exact absurd h (List.not_mem_nil r)
  | cons hd tl ih =>
    intro acc
    rcases List.mem_cons.mp h with heq | htl
    · subst heq
      show r.2 ≤ maxEndRanges tl (if r.2 > acc then r.2 else acc)
      refine le_trans ?_ (le_maxEndRanges tl _)
      split
      · exact le_refl _
      · omega
    · exact ih htl _

lemma le_foldl_maxStep (cs : List TransferCmd) :
    ∀ acc, acc ≤ cs.foldl maxStep acc := by
  induction cs with
  | nil => exact fun _ => le_refl _
  | cons c tl ih =>
    intro acc
    show acc ≤ tl.foldl maxStep (maxStep acc c)
    refine le_trans ?_ (ih _)
    unfold maxStep
    split
    · exact le_maxEndRanges _ _
    · exact le_refl _

lemma maxBlockOf_nonneg (cs : List TransferCmd) : 0 ≤ maxBlockOf cs :=
  le_foldl_maxStep cs 0

lemma mem_le_maxBlockOf {cs : List TransferCmd} {c : TransferCmd} {r : Int × Int}
    (hc : c ∈ cs) (hkw : c.1 ∈ cmdKeywords) (hr : r ∈ c.2) :
    r.2 ≤ maxBlockOf cs := by
  unfold maxBlockOf
  revert hc
  generalize (0 : Int) = acc
  induction cs generalizing acc with
  | nil => exact fun hc => absurd hc (List.not_mem_nil c)
  | cons hd tl ih =>
    intro hc
    rcases List.mem_cons.mp hc with heq | htl
    · subst heq
      show r.2 ≤ tl.foldl maxStep (maxStep acc c)
      refine le_trans ?_ (le_foldl_maxStep tl _)
      unfold maxStep
      rw [if_pos hkw]
      exact mem_le_maxEndRanges hr acc
    · exact ih _ htl

-- ===================================================================
-- Parser structure lemmas
-- ===================================================================

lemma parseLine_kw {line : List Char} {c : TransferCmd} (h : parseLine line = some c) :
    c.1 ∈ cmdKeywords := by
  unfold parseLine at h
  split at h
  · exact absurd h (by simp)
  split at h
  · exact absurd h (by simp)
  split at h
  · split at h
    next hkw =>
      split at h
      · exact absurd h (by simp)
      · injection h with hh
        rw [← hh]
        exact hkw
    next => exact absurd h (by simp)
  · exact absurd h (by simp)

lemma parse_transfer_list_kw {text : List Char} {c : TransferCmd}
    (h : c ∈ parse_transfer_list text) : c.1 ∈ cmdKeywords := by
  unfold parse_transfer_list at h
  split at h
  · exact absurd h (List.not_mem_nil c)
  · obtain ⟨a, _, hpa⟩ := List.mem_filterMap.mp h
    exact parseLine_kw hpa

-- ===================================================================
-- Character and Python-string lemmas
-- ===================================================================

lemma char_ne_of_isDigit {c : Char} (h : c.isDigit = true) {d : Char}
    (hd : d.isDigit = false) : c ≠ d := by
  intro heq
  subst heq
  rw [h] at hd
  exact Bool.noConfusion hd

lemma pyIsSpace_false_of_isDigit {c : Char} (h : c.isDigit = true) :
    pyIsSpace c = false := by
  have h1 : c ≠ ' ' := char_ne_of_isDigit h (by decide)
  have h2 : c ≠ '\t' := char_ne_of_isDigit h (by decide)
  have h3 : c ≠ '\n' := char_ne_of_isDigit h (by decide)
  have h4 : c ≠ '\r' := char_ne_of_isDigit h (by decide)
  have h5 : c ≠ '\x0b' := char_ne_of_isDigit h (by decide)
  have h6 : c ≠ '\x0c' := char_ne_of_isDigit h (by decide)
  simp [pyIsSpace, h1, h2, h3, h4, h5, h6]

lemma dropWhile_eq_self_of_all {m : List Char} (hm : ∀ c ∈ m, pyIsSpace c = false) :
    m.dropWhile pyIsSpace = m := by
  cases m with
  | nil => rfl
  | cons a t =>
    rw [List.dropWhile_cons_of_neg]
    simp [hm a (List.mem_cons_self _ _)]

lemma pyStrip_eq_self {l : List Char} (h : ∀ c ∈ l, pyIsSpace c = false) :
    pyStrip l = l := by
  unfold pyStrip
  rw [dropWhile_eq_self_of_all h,
    dropWhile_eq_self_of_all (fun c hc => h c (List.mem_reverse.mp hc)),
    List.reverse_reverse]

lemma pyStrip_eq_self_of_ends {l : List Char}
    (h1 : ∀ c, l.head? = some c → pyIsSpace c = false)
    (h2 : ∀ c, l.getLast? = some c → pyIsSpace c = false) : pyStrip l = l := by
  cases hl : l with
  | nil => rfl
  | cons a t =>
    have hhead : pyIsSpace a = false := h1 a (by rw [hl]; rfl)
    cases hrev : (a :: t).reverse with
    | nil => exact absurd hrev (by simp)
    | cons b t2 =>
      have hlast : l.getLast? = some b := by
        rw [← List.head?_reverse, hl, hrev]
        rfl
      have hb : pyIsSpace b = false := h2 b hlast
      unfold pyStrip
      rw [List.dropWhile_cons_of_neg (by simp [hhead]), hrev,
        List.dropWhile_cons_of_neg (by simp [hb]), ← hrev, List.reverse_reverse]

lemma pySplitOn_cons_of_ne {sep c : Char} (rest : List Char) (h : c ≠ sep) :
    pySplitOn sep (c :: rest) =
      match pySplitOn sep rest with
      | [] => [[c]]
      | g :: gs => (c :: g) :: gs := by
  rw [pySplitOn, if_neg h]

lemma pySplitOn_not_mem {sep : Char} {l : List Char} (h : sep ∉ l) :
    pySplitOn sep l = [l] := by
  induction l with
  | nil => rfl
  | cons c rest ih =>
    have hcs : c ≠ sep := fun heq => h (heq ▸ List.mem_cons_self _ _)
    rw [pySplitOn_cons_of_ne rest hcs, ih (fun hm => h (List.mem_cons_of_mem _ hm))]

lemma pySplitOn_append {sep : Char} {a : List Char} (b : List Char) (h : sep ∉ a) :
    pySplitOn sep (a ++ sep :: b) = a :: pySplitOn sep b := by
  induction a with
  | nil =>
    rw [List.nil_append, pySplitOn, if_pos rfl]
  | cons c t ih =>
    have hcs : c ≠ sep := fun heq => h (heq ▸ List.mem_cons_self _ _)
    rw [List.cons_append, pySplitOn_cons_of_ne _ hcs,
      ih (fun hm => h (List.mem_cons_of_mem _ hm))]

-- ===================================================================
-- Decimal strings: pyStr parses back to the number it was printed from
-- ===================================================================

lemma uDigitsAux_all_digits {s : List Char} (h : ∀ c ∈ s, c.isDigit = true) :
    uDigitsAux s = some (s.map (fun c => c.toNat - 48)) := by
  induction s with
  | nil => rfl
  | cons c t ih =>
    have hc := h c (List.mem_cons_self _ _)
    simp only [uDigitsAux, hc, if_true, ih (fun c2 hc2 => h c2 (List.mem_cons_of_mem _ hc2))]
    rfl

lemma foldl_digits_reverse (L : List Nat) :
    ∀ a : Nat, (L.reverse).foldl (fun x d => 10 * x + d) a
      = a * 10 ^ L.length + Nat.ofDigits 10 L := by
  induction L with
  | nil =>
    intro a
    simp [Nat.ofDigits_nil]
  | cons d t ih =>
    intro a
    rw [List.reverse_cons, List.foldl_append, ih a]
    simp only [List.foldl_cons, List.foldl_nil, Nat.ofDigits_cons, List.length_cons]
    ring

lemma uDigitsVal_digits_reverse (n : Nat) :
    uDigitsVal ((Nat.digits 10 n).reverse) = n := by
  unfold uDigitsVal
  rw [foldl_digits_reverse]
  simp [Nat.ofDigits_digits]

lemma pyStr_all_digits (n : Nat) : ∀ c ∈ pyStr n, c.isDigit = true := by
  intro c hc
  unfold pyStr at hc
  split at hc
  · simp only [List.mem_singleton] at hc
    subst hc
    decide
  · rw [List.mem_map] at hc
    obtain ⟨d, hd, rfl⟩ := hc
    have hlt : d < 10 := Nat.digits_lt_base (by norm_num) (List.mem_reverse.mp hd)
    have hall : ∀ d2 < 10, (Nat.digitChar d2).isDigit = true := by decide
    exact hall d hlt

lemma pyStr_ne_nil (n : Nat) : pyStr n ≠ [] := by
  unfold pyStr
  split
  · simp
  · simp only [ne_eq, List.map_eq_nil_iff, List.reverse_eq_nil_iff]
    next h => exact Nat.digits_ne_nil_iff_ne_zero.mpr h

lemma pyStr_map_val (n : Nat) (h : n ≠ 0) :
    (pyStr n).map (fun c => c.toNat - 48) = (Nat.digits 10 n).reverse := by
  unfold pyStr
  rw [if_neg h, List.map_map]
  have hmap : ∀ d ∈ (Nat.digits 10 n).reverse,
      ((fun c => c.toNat - 48) ∘ Nat.digitChar) d = d := by
    intro d hd
    have hlt : d < 10 := Nat.digits_lt_base (by norm_num) (List.mem_reverse.mp hd)
    have hall : ∀ d2 < 10, (Nat.digitChar d2).toNat - 48 = d2 := by decide
    exact hall d hlt
  calc ((Nat.digits 10 n).reverse).map ((fun c => c.toNat - 48) ∘ Nat.digitChar)
      = ((Nat.digits 10 n).reverse).map id := List.map_congr_left hmap
    _ = (Nat.digits 10 n).reverse := List.map_id _

lemma uDigitsStart_cons (c : Char) (t : List Char) :
    uDigitsStart (c :: t)
      = if c.isDigit then (uDigitsAux (c :: t)).map uDigitsVal else none := rfl

lemma pyInt?_pyStr (n : Nat) : pyInt? (pyStr n) = some (n : Int) := by
  by_cases h0 : n = 0
  · subst h0
    decide
  have hdig := pyStr_all_digits n
  have hne := pyStr_ne_nil n
  have hstrip : pyStrip (pyStr n) = pyStr n :=
    pyStrip_eq_self (fun c hc => pyIsSpace_false_of_isDigit (hdig c hc))
  obtain ⟨c, t, hct⟩ := List.exists_cons_of_ne_nil hne
  have hcd : c.isDigit = true := hdig c (hct ▸ List.mem_cons_self _ _)
  have h1 : c ≠ '+' := char_ne_of_isDigit hcd (by decide)
  have h2 : c ≠ '-' := char_ne_of_isDigit hcd (by decide)
  have hhd : (pyStr n).head? = some c := by rw [hct]; rfl
  have hstart : uDigitsStart (pyStr n) = some n := by
    rw [hct, uDigitsStart_cons, if_pos hcd, ← hct, uDigitsAux_all_digits hdig,
      pyStr_map_val n h0]
    show some (uDigitsVal ((Nat.digits 10 n).reverse)) = some n
    rw [uDigitsVal_digits_reverse]
  unfold pyInt?
  rw [hstrip, hhd, if_neg (by simp [h1]), if_neg (by simp [h2]), hstart]
  rfl

-- ===================================================================
-- Reading back a file written line by line
-- ===================================================================

lemma pySplitOn_joinNL (ls : List (List Char)) (h : ∀ l ∈ ls, '\n' ∉ l) :
    pySplitOn '\n' (joinNL ls) = ls ++ [[]] := by
  induction ls with
  | nil => rfl
  | cons l t ih =>
    show pySplitOn '\n' ((l ++ ['\n']) ++ joinNL t) = (l :: t) ++ [[]]
    rw [List.append_assoc, List.singleton_append,
      pySplitOn_append _ (h l (List.mem_cons_self _ _)),
      ih (fun l2 hl2 => h l2 (List.mem_cons_of_mem _ hl2))]
    rfl

lemma joinNL_ne_nil {ls : List (List Char)} (h : ls ≠ []) : joinNL ls ≠ [] := by
  cases ls with
  | nil => exact absurd rfl h
  | cons l t => simp [joinNL]

lemma getLast?_joinNL (ls : List (List Char)) (h : ls ≠ []) :
    (joinNL ls).getLast? = some '\n' := by
  induction ls with
  | nil => exact absurd rfl h
  | cons l t ih =>
    by_cases ht : t = []
    · subst ht
      show ((l ++ ['\n']) ++ joinNL []).getLast? = some '\n'
      rw [show joinNL [] = [] from rfl, List.append_nil, List.getLast?_concat]
    · show ((l ++ ['\n']) ++ joinNL t).getLast? = some '\n'
      rw [List.getLast?_append, ih ht]
      rfl

lemma pyReadLines_joinNL (ls : List (List Char)) (hne : ls ≠ [])
    (h : ∀ l ∈ ls, '\n' ∉ l) : pyReadLines (joinNL ls) = ls := by
  unfold pyReadLines
  rw [if_neg (joinNL_ne_nil hne), if_pos (getLast?_joinNL ls hne),
    pySplitOn_joinNL ls h, List.dropLast_concat]

-- ===================================================================
-- Parsing the writer's command line and five-line document
-- ===================================================================

lemma not_mem_pyStr (tb : Nat) {d : Char} (hd : d.isDigit = false) : d ∉ pyStr tb := by
  intro hmem
  have hdig := pyStr_all_digits tb d hmem
  rw [hdig] at hd
  exact Bool.noConfusion hd

lemma parseLine_new (tb : Nat) :
    parseLine ("new 0,".data ++ pyStr tb) = some ("new".data, [(0, (tb : Int))]) := by
  have hne : ("new 0,".data ++ pyStr tb) ≠ [] := by simp
  have hstrip : pyStrip ("new 0,".data ++ pyStr tb) = "new 0,".data ++ pyStr tb := by
    apply pyStrip_eq_self_of_ends
    · intro c hc
      rw [show (("new 0,".data ++ pyStr tb).head?) = some 'n' from rfl] at hc
      injection hc with hc2
      subst hc2
      decide
    · intro c hc
      rw [List.getLast?_append, List.getLast?_eq_getLast_of_ne_nil (pyStr_ne_nil tb)] at hc
      have hc2 : some ((pyStr tb).getLast (pyStr_ne_nil tb)) = some c := hc
      injection hc2 with hc3
      exact pyIsSpace_false_of_isDigit (hc3 ▸ pyStr_all_digits tb _ (List.getLast_mem _))
  have hnosp : ' ' ∉ "0,".data ++ pyStr tb := by
    intro hmem
    rcases List.mem_append.mp hmem with hm | hm
    · exact absurd hm (by decide)
    · exact not_mem_pyStr tb (by decide) hm
  have hsplit1 : pySplitOn ' ' ("new 0,".data ++ pyStr tb)
      = ["new".data, "0,".data ++ pyStr tb] := by
    rw [show ("new 0,".data ++ pyStr tb) = "new".data ++ ' ' :: ("0,".data ++ pyStr tb)
        from rfl,
      pySplitOn_append _ (by decide), pySplitOn_not_mem hnosp]
  have hnoc : ',' ∉ pyStr tb := not_mem_pyStr tb (by decide)
  have hsplit2 : pySplitOn ',' ("0,".data ++ pyStr tb) = [['0'], pyStr tb] := by
    rw [show ("0,".data ++ pyStr tb) = ['0'] ++ ',' :: pyStr tb from rfl,
      pySplitOn_append _ (by decide), pySplitOn_not_mem hnoc]
  have hpp : parsePairs [['0'], pyStr tb] = [(0, (tb : Int))] := by
    have h0 : pyInt? ['0'] = some 0 := by decide
    simp only [parsePairs, h0, pyInt?_pyStr]
  unfold parseLine
  rw [hstrip, if_neg hne,
    if_neg (by rw [show (("new 0,".data ++ pyStr tb).head?) = some 'n' from rfl]; decide),
    hsplit1]
  show (if ("new".data : List Char) ∈ cmdKeywords then
      if (pySplitOn ',' ("0,".data ++ pyStr tb)).length % 2 ≠ 0 then none
      else some ("new".data, parsePairs (pySplitOn ',' ("0,".data ++ pyStr tb)))
    else none) = some ("new".data, [(0, (tb : Int))])
  rw [if_pos (by decide), hsplit2, if_neg (by simp), hpp]

lemma pyReadLines_five (mid : List Char) (tb : Nat) (hmid : '\n' ∉ mid) :
    pyReadLines (joinNL [['4'], mid, ['0'], ['0'], "new 0,".data ++ pyStr tb])
      = [['4'], mid, ['0'], ['0'], "new 0,".data ++ pyStr tb] := by
  apply pyReadLines_joinNL _ (by simp)
  intro l hl
  simp only [List.mem_cons, List.not_mem_nil, or_false] at hl
  rcases hl with rfl | rfl | rfl | rfl | rfl
  · decide
  · exact hmid
  · decide
  · decide
  · intro hmem
    rcases List.mem_append.mp hmem with hm | hm
    · exact absurd hm (by decide)
    · exact not_mem_pyStr tb (by decide) hm

lemma parse_five_lines (mid : List Char) (tb : Nat) (hmid : '\n' ∉ mid) :
    parse_transfer_list (joinNL [['4'], mid, ['0'], ['0'], "new 0,".data ++ pyStr tb])
      = [("new".data, [(0, (tb : Int))])] := by
  have hlines := pyReadLines_five mid tb hmid
  unfold parse_transfer_list
  rw [hlines]
  simp only [List.headD_cons, List.tail_cons]
  rw [if_neg (by simp), show pyInt? ['4'] = some (4 : Int) from by decide]
  simp only [Option.getD_some]
  rw [if_pos (by decide)]
  simp only [List.drop_succ_cons, List.drop_zero]
  rw [List.filterMap_cons, parseLine_new]
  rfl

lemma maxBlockOf_single_new (tb : Nat) :
    maxBlockOf [("new".data, [(0, (tb : Int))])] = (tb : Int) := by
  unfold maxBlockOf
  simp only [List.foldl_cons, List.foldl_nil]
  unfold maxStep
  rw [if_pos (show (("new".data, [(0, (tb : Int))]) : TransferCmd).1 ∈ cmdKeywords
    from by show ("new".data : List Char) ∈ cmdKeywords; decide)]
  unfold maxEndRanges
  simp only [List.foldl_cons, List.foldl_nil]
  split
  · rfl
  · omega

lemma totalBlocksOf_mul {n : Nat} (X : List Nat) (h : X.length = n * blockSize) :
    totalBlocksOf X = n := by
  unfold totalBlocksOf
  rw [h, show blockSize = 4096 from rfl]
  omega

lemma convert_img_to_dat_text (X : List Nat) :
    (convert_img_to_dat X).1 = joinNL [['4'], pyStr (totalBlocksOf X), ['0'], ['0'],
      "new 0,".data ++ pyStr (totalBlocksOf X)] := by
  unfold convert_img_to_dat
  simp [joinNL]

lemma run_single_new (dat : List Nat) (e : Nat) (f : List Nat) (cur : Nat) :
    runCmds dat [("new".data, [(0, (e : Int))])] ⟨f, cur⟩
      = .ok (applyNewBlocks dat 0 e f cur) := by
  simp [runCmds, runCmd, runNewRanges]

lemma single_new_file (dat : List Nat) (e : Nat) :
    convert_dat_to_img (joinNL [['4'], ['0'], ['0'], ['0'], "new 0,".data ++ pyStr e]) dat
      = .ok ((applyNewBlocks dat 0 e (List.replicate (e * blockSize) 0) 0).file) := by
  have hparse := parse_five_lines ['0'] e (by decide)
  unfold convert_dat_to_img
  rw [hparse, if_neg (by simp), maxBlockOf_single_new e,
    show ((e : Int)).toNat = e from Int.toNat_natCast e, run_single_new]

-- ===================================================================
-- Claim theorems C1, C6, C8
-- ===================================================================

/-- Claim C1: for every byte string X whose length is an exact multiple of
BlockSize (4096), decoding the result of encoding X — running
`convert_dat_to_img` on the transfer list and dat stream produced by
`convert_img_to_dat X` — yields X byte-for-byte. -/
theorem c1_decode_encode_roundtrip (X : List Nat) (h : blockSize ∣ X.length) :
    convert_dat_to_img (convert_img_to_dat X).1 (convert_img_to_dat X).2 = .ok X := by
  obtain ⟨n, hn⟩ := h
  have hlen : X.length = n * blockSize := by rw [hn]; ring
  have htb : totalBlocksOf X = n := totalBlocksOf_mul X hlen
  have htext : (convert_img_to_dat X).1
      = joinNL [['4'], pyStr n, ['0'], ['0'], "new 0,".data ++ pyStr n] := by
    rw [convert_img_to_dat_text, htb]
  have hdat : (convert_img_to_dat X).2 = X := rfl
  rw [htext, hdat]
  have hparse := parse_five_lines (pyStr n) n (not_mem_pyStr n (by decide))
  unfold convert_dat_to_img
  rw [hparse, if_neg (by simp), maxBlockOf_single_new n,
    show ((n : Int)).toNat = n from Int.toNat_natCast n, run_single_new]
  have hinit : (List.replicate (n * blockSize) (0 : Nat)).length = n * blockSize :=
    List.length_replicate _ _
  have hfl : ((applyNewBlocks X 0 n (List.replicate (n * blockSize) 0) 0).file).length
      = n * blockSize := by
    rw [applyNewBlocks_length X n 0 _ 0 (by rw [hinit]; omega), hinit]
  have hfile : (applyNewBlocks X 0 n (List.replicate (n * blockSize) 0) 0).file = X := by
    apply list_eq_of_getD (by rw [hfl, hlen])
    intro i hi
    rw [hfl] at hi
    rw [applyNewBlocks_getD, if_pos ⟨Nat.zero_le i, by omega⟩]
    have : 0 + (i - 0) = i := by omega
    rw [this]
  exact congrArg Except.ok hfile

/-- Claim C1 witness: a concrete one-block image round-trips. -/
theorem c1_decode_encode_roundtrip_witness :
    convert_dat_to_img (convert_img_to_dat (List.replicate 4096 7)).1
        (convert_img_to_dat (List.replicate 4096 7)).2
      = .ok (List.replicate 4096 7) :=
  c1_decode_encode_roundtrip (List.replicate 4096 7)
    (by rw [List.length_replicate]; decide)

/-- Claim C6: a `new` command whose block-data source runs out early
zero-fills the missing blocks and decode completes without error: a
document `new 0,e` materialized from only `k ≤ e` source blocks yields
the source bytes followed by `(e-k)*blockSize` zero bytes. -/
theorem c6_truncated_source_zero_fills (e k : Nat) (dat : List Nat)
    (hlen : dat.length = k * blockSize) (hke : k ≤ e) :
    convert_dat_to_img (joinNL [['4'], ['0'], ['0'], ['0'], "new 0,".data ++ pyStr e]) dat
      = .ok (dat ++ List.replicate ((e - k) * blockSize) 0) := by
  rw [single_new_file dat e]
  have hinit : (List.replicate (e * blockSize) (0 : Nat)).length = e * blockSize :=
    List.length_replicate _ _
  have hfl : ((applyNewBlocks dat 0 e (List.replicate (e * blockSize) 0) 0).file).length
      = e * blockSize := by
    rw [applyNewBlocks_length dat e 0 _ 0 (by rw [hinit]; omega), hinit]
  have hrlen : (dat ++ List.replicate ((e - k) * blockSize) (0 : Nat)).length
      = e * blockSize := by
    rw [List.length_append, List.length_replicate, hlen, ← Nat.add_mul,
      show k + (e - k) = e from by omega]
  have hfile : (applyNewBlocks dat 0 e (List.replicate (e * blockSize) 0) 0).file
      = dat ++ List.replicate ((e - k) * blockSize) 0 := by
    apply list_eq_of_getD (by rw [hfl, hrlen])
    intro i hi
    rw [hfl] at hi
    rw [applyNewBlocks_getD, if_pos ⟨Nat.zero_le i, by omega⟩,
      show 0 + (i - 0) = i from by omega]
    rcases lt_or_ge i dat.length with hil | hir
    · rw [getD_append_left _ hil 0]
    · rw [getD_append_right _ hir 0, getD_replicate_zero, getD_out hir 0]
  rw [hfile]

/-- Claim C6 witness: `new 0,4` with only 2 source blocks yields blocks 2
and 3 zero-filled, without error. -/
theorem c6_truncated_source_zero_fills_witness :
    convert_dat_to_img (joinNL [['4'], ['0'], ['0'], ['0'], "new 0,".data ++ pyStr 4])
        (List.replicate 8192 7)
      = .ok (List.replicate 8192 7 ++ List.replicate ((4 - 2) * blockSize) 0) :=
  c6_truncated_source_zero_fills 4 2 (List.replicate 8192 7)
    (by rw [List.length_replicate]; rfl) (by decide)

/-- Claim C8: for every image, the writer emits exactly the 4-line header
version 4 / total_blocks / 0 / 0 followed by exactly one `new` command
spanning `[0, total_blocks)` and nothing else, where `total_blocks` is
the ceiling of length / 4096 (characterised by the two bounds). -/
theorem c8_writer_emits_header_and_single_new (X : List Nat) :
    ∃ tb : Nat,
      pyReadLines (convert_img_to_dat X).1
        = [['4'], pyStr tb, ['0'], ['0'], "new 0,".data ++ pyStr tb] ∧
      parse_transfer_list (convert_img_to_dat X).1 = [("new".data, [(0, (tb : Int))])] ∧
      X.length ≤ tb * blockSize ∧ tb * blockSize < X.length + blockSize := by
  refine ⟨totalBlocksOf X, ?_, ?_, ?_, ?_⟩
  · rw [convert_img_to_dat_text]
    exact pyReadLines_five (pyStr (totalBlocksOf X)) (totalBlocksOf X)
      (not_mem_pyStr _ (by decide))
  · rw [convert_img_to_dat_text]
    exact parse_five_lines (pyStr (totalBlocksOf X)) (totalBlocksOf X)
      (not_mem_pyStr _ (by decide))
  · unfold totalBlocksOf
    rw [show blockSize = 4096 from rfl]
    omega
  · unfold totalBlocksOf
    rw [show blockSize = 4096 from rfl]
    omega

-- ===================================================================
-- Claim theorems C10, C5
-- ===================================================================

/-- Claim C10: when parsing a transfer list yields an empty command
sequence, decode does not produce an empty or zero image — it fails with
the fatal "no valid commands" error before any output exists. -/
theorem c10_empty_parse_is_fatal (text : List Char) (dat : List Nat)
    (h : parse_transfer_list text = []) :
    convert_dat_to_img text dat
      = .error ("No valid commands found in transfer list".data) := by
  unfold convert_dat_to_img
  rw [if_pos h]

/-- Claim C10 witness: a document of only blank, comment and unrecognized
lines parses to nothing and decode fails. -/
theorem c10_empty_parse_is_fatal_witness :
    convert_dat_to_img "hello\n# comment\n\nfoo\n".data []
      = .error ("No valid commands found in transfer list".data) :=
  c10_empty_parse_is_fatal "hello\n# comment\n\nfoo\n".data [] (by decide)

/-- Claim C5 counterexample: the claim says a line with a non-integer
range value is skipped in its entirety, so one malformed line plus one
valid `new 0,4` parses to exactly one command.  In the code the
`continue` sits in the inner pair loop: `new x,4` still emits a command
(with the bad pair dropped), so this document parses to two commands. -/
theorem c5_counterexample :
    parse_transfer_list "4\n0\n0\n0\nnew x,4\nnew 0,4\n".data
        = [("new".data, []), ("new".data, [(0, 4)])] ∧
      (parse_transfer_list "4\n0\n0\n0\nnew x,4\nnew 0,4\n".data).length ≠ 1 := by
  decide

/-- Claim C5 (amended): an odd-length range list skips the whole line
with a warning and parsing never aborts, but a non-integer range value
only drops the offending (start, end) pair — the line still yields a
command with the remaining pairs.  A document with one odd-length
malformed line and one valid `new 0,4` line parses to exactly one
command. -/
theorem c5_malformed_ranges_tolerated
    (a b : List Char) (rest : List (List Char))
    (l p0 p1 : List Char) (ps : List (List Char))
    (hbad : pyInt? a = none)
    (hparts : pySplitOn ' ' (pyStrip l) = p0 :: p1 :: ps)
    (hkw : p0 ∈ cmdKeywords)
    (hodd : (pySplitOn ',' p1).length % 2 = 1) :
    parsePairs (a :: b :: rest) = parsePairs rest ∧
    parseLine l = none ∧
    parse_transfer_list "4\n0\n0\n0\nnew 0,4,8\nnew 0,4\n".data
      = [("new".data, [(0, 4)])] := by
  refine ⟨?_, ?_, by decide⟩
  · cases hb : pyInt? b with
    | none => simp [parsePairs, hbad, hb]
    | some v => simp [parsePairs, hbad, hb]
  · have hstripne : pyStrip l ≠ [] := by
      intro h0
      rw [h0] at hparts
      simp [pySplitOn] at hparts
    unfold parseLine
    rw [if_neg hstripne]
    by_cases hhash : (pyStrip l).head? = some '#'
    · rw [if_pos hhash]
    · rw [if_neg hhash, hparts]
      show (if p0 ∈ cmdKeywords then
          if (pySplitOn ',' p1).length % 2 ≠ 0 then none
          else some (p0, parsePairs (pySplitOn ',' p1))
        else none) = none
      rw [if_pos hkw, if_pos (by omega)]

/-- Claim C5 amended witness: `new x,4` drops only the bad pair,
`new 0,4,8` is skipped whole, and the odd-line document parses to
exactly one command. -/
theorem c5_malformed_ranges_tolerated_witness :
    parsePairs ["x".data, "4".data] = parsePairs [] ∧
    parseLine "new 0,4,8".data = none ∧
    parse_transfer_list "4\n0\n0\n0\nnew 0,4,8\nnew 0,4\n".data
      = [("new".data, [(0, 4)])] :=
  c5_malformed_ranges_tolerated "x".data "4".data [] "new 0,4,8".data
    "new".data "0,4,8".data [] (by decide) (by decide) (by decide) (by decide)

-- ===================================================================
-- Claim theorem C4
-- ===================================================================

/-- Claim C4 (under the data model's BlockRange invariant `start ≥ 0`):
for every parsed transfer-list document, decode succeeds with output of
exactly `extent * blockSize` bytes where the extent is the `max_block`
fold over the commands, and last-writer-wins: on every block covered by
the later commands `cs2` the output bytes equal those produced by
running `cs2` alone on a pristine zero image (with the block-data cursor
positioned as the earlier commands `cs1` leave it) — writes of earlier
commands never show through on overlapped blocks. -/
theorem c4_extent_and_last_writer_wins
    (text : List Char) (dat : List Nat) (cs1 cs2 : List TransferCmd)
    (hsplit : parse_transfer_list text = cs1 ++ cs2)
    (hnn : ∀ c ∈ cs1 ++ cs2, ∀ r ∈ c.2, 0 ≤ r.1)
    (hne : cs1 ++ cs2 ≠ []) :
    ∃ out st1 st2,
      convert_dat_to_img text dat = .ok out ∧
      out.length = (maxBlockOf (cs1 ++ cs2)).toNat * blockSize ∧
      runCmds dat cs1
          ⟨List.replicate ((maxBlockOf (cs1 ++ cs2)).toNat * blockSize) 0, 0⟩ = .ok st1 ∧
      runCmds dat cs2
          ⟨List.replicate ((maxBlockOf (cs1 ++ cs2)).toNat * blockSize) 0, st1.cursor⟩
        = .ok st2 ∧
      ∀ b, coveredBlock b cs2 → ∀ i, b * blockSize ≤ i → i < (b + 1) * blockSize →
        out.getD i 0 = st2.file.getD i 0 := by
  have hkw : ∀ c ∈ cs1 ++ cs2, c.1 ∈ cmdKeywords := by
    intro c hc
    exact parse_transfer_list_kw (show c ∈ parse_transfer_list text by
      rw [hsplit]; exact hc)
  have hbound : ∀ c ∈ cs1 ++ cs2, ∀ r ∈ c.2, 0 ≤ r.1 ∧ r.2.toNat * blockSize ≤
      (List.replicate ((maxBlockOf (cs1 ++ cs2)).toNat * blockSize) (0 : Nat)).length := by
    intro c hc r hr
    refine ⟨hnn c hc r hr, ?_⟩
    rw [List.length_replicate]
    exact Nat.mul_le_mul_right _ (Int.toNat_le_toNat (mem_le_maxBlockOf hc (hkw c hc) hr))
  obtain ⟨stF, hstF, hstFlen⟩ := runCmds_length dat (cs1 ++ cs2)
    ⟨List.replicate ((maxBlockOf (cs1 ++ cs2)).toNat * blockSize) 0, 0⟩ hbound
  have happ := runCmds_append dat cs1 cs2
    ⟨List.replicate ((maxBlockOf (cs1 ++ cs2)).toNat * blockSize) 0, 0⟩
  cases h1 : runCmds dat cs1
      ⟨List.replicate ((maxBlockOf (cs1 ++ cs2)).toNat * blockSize) 0, 0⟩ with
  | error e =>
    rw [happ, h1] at hstF
    exact absurd hstF (by simp)
  | ok st1 =>
    have h2 : runCmds dat cs2 st1 = .ok stF := by
      rw [happ, h1] at hstF
      exact hstF
    obtain ⟨r1, r2, hr1, hr2, hrc, hpres, hcov⟩ := runCmds_agree dat cs2 st1
      ⟨List.replicate ((maxBlockOf (cs1 ++ cs2)).toNat * blockSize) 0, st1.cursor⟩ rfl
      (fun c hc r hr => hnn c (List.mem_append.mpr (Or.inr hc)) r hr)
    have hr1F : r1 = stF := by
      rw [hr1] at h2
      injection h2
    refine ⟨stF.file, st1, r2, ?_, ?_, rfl, hr2, ?_⟩
    · unfold convert_dat_to_img
      rw [hsplit, if_neg hne, hstF]
    · rw [hstFlen, List.length_replicate]
    · intro b hb i h1i h2i
      have hcc := hcov b hb i h1i h2i
      rw [hr1F] at hcc
      exact hcc

/-- Claim C4 witness: the spec's overlap example `new 0,2` then
`zero 0,1`. -/
theorem c4_extent_and_last_writer_wins_witness :
    ∃ out st1 st2,
      convert_dat_to_img "4\n2\n0\n0\nnew 0,2\nzero 0,1\n".data [] = .ok out ∧
      out.length
        = (maxBlockOf ([("new".data, [(0, 2)])] ++ [("zero".data, [(0, 1)])])).toNat
            * blockSize ∧
      runCmds [] [("new".data, [(0, 2)])]
          ⟨List.replicate ((maxBlockOf ([("new".data, [(0, 2)])]
            ++ [("zero".data, [(0, 1)])])).toNat * blockSize) 0, 0⟩ = .ok st1 ∧
      runCmds [] [("zero".data, [(0, 1)])]
          ⟨List.replicate ((maxBlockOf ([("new".data, [(0, 2)])]
            ++ [("zero".data, [(0, 1)])])).toNat * blockSize) 0, st1.cursor⟩ = .ok st2 ∧
      ∀ b, coveredBlock b [("zero".data, [(0, 1)])] →
        ∀ i, b * blockSize ≤ i → i < (b + 1) * blockSize →
          out.getD i 0 = st2.file.getD i 0 :=
  c4_extent_and_last_writer_wins "4\n2\n0\n0\nnew 0,2\nzero 0,1\n".data []
    [("new".data, [(0, 2)])] [("zero".data, [(0, 1)])]
    (by decide) (by decide) (by decide)

-- ===================================================================
-- Cipher-side lemmas: chunking, padding, ECB
-- ===================================================================

lemma chunksAux_fuel : ∀ (f1 f2 : Nat) (d : List Nat),
    d.length ≤ f1 → d.length ≤ f2 → chunksAux f1 d = chunksAux f2 d := by
  intro f1
  induction f1 with
  | zero =>
    intro f2 d h1 _
    have hd : d = [] := List.eq_nil_of_length_eq_zero (Nat.le_zero.mp h1)
    subst hd
    cases f2 <;> rfl
  | succ f1 ih =>
    intro f2 d h1 h2
    cases d with
    | nil => cases f2 <;> rfl
    | cons c t =>
      cases f2 with
      | zero => simp at h2
      | succ g =>
        simp only [chunksAux]
        have hC : cipherChunkSize = 16384 := rfl
        have hd : ((c :: t).drop cipherChunkSize).length ≤ f1 := by
          rw [List.length_drop, List.length_cons]
          simp only [List.length_cons] at h1
          omega
        have hd2 : ((c :: t).drop cipherChunkSize).length ≤ g := by
          rw [List.length_drop, List.length_cons]
          simp only [List.length_cons] at h2
          omega
        rw [ih g _ hd hd2]

lemma chunkStream_cons {d : List Nat} (h : d ≠ []) :
    chunkStream d = d.take cipherChunkSize :: chunkStream (d.drop cipherChunkSize) := by
  obtain ⟨c, t, rfl⟩ := List.exists_cons_of_ne_nil h
  unfold chunkStream
  simp only [List.length_cons, chunksAux]
  have hC : cipherChunkSize = 16384 := rfl
  rw [chunksAux_fuel t.length ((c :: t).drop cipherChunkSize).length _
    (by rw [List.length_drop, List.length_cons]; omega) le_rfl]

lemma chunkStream_eq_nil_iff (d : List Nat) : chunkStream d = [] ↔ d = [] := by
  constructor
  · intro h
    by_contra hd
    rw [chunkStream_cons hd] at h
    exact List.noConfusion h
  · intro h
    subst h
    rfl

lemma chunkStream_flatten_aux : ∀ (N : Nat) (d : List Nat), d.length ≤ N →
    (chunkStream d).flatten = d := by
  intro N
  induction N with
  | zero =>
    intro d h
    have hd : d = [] := List.eq_nil_of_length_eq_zero (Nat.le_zero.mp h)
    subst hd
    rfl
  | succ N ih =>
    intro d h
    by_cases hd : d = []
    · subst hd
      rfl
    · have hC : cipherChunkSize = 16384 := rfl
      have hlen : 1 ≤ d.length := by
        cases d with
        | nil => exact absurd rfl hd
        | cons c t => simp
      rw [chunkStream_cons hd, List.flatten_cons,
        ih (d.drop cipherChunkSize) (by rw [List.length_drop]; omega),
        List.take_append_drop]

lemma chunkStream_flatten (d : List Nat) : (chunkStream d).flatten = d :=
  chunkStream_flatten_aux d.length d le_rfl

lemma chunkStream_dropLast_full : ∀ (N : Nat) (d : List Nat), d.length ≤ N →
    ∀ c ∈ (chunkStream d).dropLast, c.length = cipherChunkSize := by
  intro N
  induction N with
  | zero =>
    intro d h c hc
    have hd : d = [] := List.eq_nil_of_length_eq_zero (Nat.le_zero.mp h)
    subst hd
    exact absurd hc (by simp [chunkStream, chunksAux])
  | succ N ih =>
    intro d h c hc
    by_cases hd : d = []
    · subst hd
      exact absurd hc (by simp [chunkStream, chunksAux])
    · rw [chunkStream_cons hd] at hc
      by_cases hrest : chunkStream (d.drop cipherChunkSize) = []
      · rw [hrest] at hc
        exact absurd hc (by simp)
      · rw [List.dropLast_cons_of_ne_nil hrest] at hc
        have hC : cipherChunkSize = 16384 := rfl
        have hdlong : cipherChunkSize < d.length := by
          have hne := (not_iff_not.mpr (chunkStream_eq_nil_iff (d.drop cipherChunkSize))).mp hrest
          have := List.length_pos.mpr hne
          rw [List.length_drop] at this
          omega
        rcases List.mem_cons.mp hc with heq | htl
        · subst heq
          rw [List.length_take]
          omega
        · exact ih (d.drop cipherChunkSize) (by rw [List.length_drop]; omega) c htl

lemma ecbAux_fuel (B : List Nat → List Nat) : ∀ (f1 f2 : Nat) (d : List Nat),
    d.length ≤ f1 → d.length ≤ f2 → ecbAux B f1 d = ecbAux B f2 d := by
  intro f1
  induction f1 with
  | zero =>
    intro f2 d h1 _
    have hd : d = [] := List.eq_nil_of_length_eq_zero (Nat.le_zero.mp h1)
    subst hd
    cases f2 <;> rfl
  | succ f1 ih =>
    intro f2 d h1 h2
    cases d with
    | nil => cases f2 <;> rfl
    | cons c t =>
      cases f2 with
      | zero => simp at h2
      | succ g =>
        simp only [ecbAux]
        have hd : ((c :: t).drop 16).length ≤ f1 := by
          rw [List.length_drop, List.length_cons]
          simp only [List.length_cons] at h1
          omega
        have hd2 : ((c :: t).drop 16).length ≤ g := by
          rw [List.length_drop, List.length_cons]
          simp only [List.length_cons] at h2
          omega
        rw [ih g _ hd hd2]

lemma ecb_cons (B : List Nat → List Nat) {d : List Nat} (h : d ≠ []) :
    ecb B d = B (d.take 16) ++ ecb B (d.drop 16) := by
  obtain ⟨c, t, rfl⟩ := List.exists_cons_of_ne_nil h
  unfold ecb
  simp only [List.length_cons, ecbAux]
  rw [ecbAux_fuel B t.length ((c :: t).drop 16).length _
    (by rw [List.length_drop, List.length_cons]; omega) le_rfl]

lemma ecb_append (B : List Nat → List Nat) :
    ∀ (k : Nat) (a b : List Nat), a.length = 16 * k →
      ecb B (a ++ b) = ecb B a ++ ecb B b := by
  intro k
  induction k with
  | zero =>
    intro a b h
    have ha : a = [] := List.eq_nil_of_length_eq_zero (by omega)
    subst ha
    rfl
  | succ k ih =>
    intro a b h
    have hane : a ≠ [] := by
      intro hn
      rw [hn] at h
      simp at h
    have habne : a ++ b ≠ [] := by
      intro hn
      exact hane (List.append_eq_nil.mp hn).1
    rw [ecb_cons B habne, ecb_cons B hane,
      List.take_append_of_le_length (by omega),
      List.drop_append_of_le_length (by omega),
      ih (a.drop 16) b (by rw [List.length_drop]; omega),
      List.append_assoc]

lemma padIfNeeded_nil : padIfNeeded [] = [] := rfl

lemma padIfNeeded_append {a : List Nat} (b : List Nat) (h : a.length % 16 = 0) :
    padIfNeeded (a ++ b) = a ++ padIfNeeded b := by
  unfold padIfNeeded pkcs7pad
  have hlen : (a ++ b).length = a.length + b.length := List.length_append a b
  by_cases hb : b.length % 16 = 0
  · rw [if_neg (by rw [hlen]; omega), if_neg (by omega)]
  · rw [if_pos (by rw [hlen]; omega), if_pos (by omega), List.append_assoc,
      show (a ++ b).length % 16 = b.length % 16 from by rw [hlen]; omega]

lemma padIfNeeded_full {c : List Nat} (h : c.length % 16 = 0) : padIfNeeded c = c := by
  unfold padIfNeeded
  rw [if_neg (by omega)]

lemma chunked_cipher_eq (B : List Nat → List Nat) :
    ∀ (cs : List (List Nat)), (∀ c ∈ cs.dropLast, c.length % 16 = 0) →
      (cs.map (fun c => ecb B (padIfNeeded c))).flatten = ecb B (padIfNeeded cs.flatten) := by
  intro cs
  induction cs with
  | nil => intro _; rfl
  | cons c t ih =>
    intro h
    cases ht : t with
    | nil =>
      simp only [List.map_cons, List.map_nil, List.flatten_cons, List.flatten_nil,
        List.append_nil]
    | cons c2 t2 =>
      rw [← ht]
      have htne : t ≠ [] := by rw [ht]; exact List.cons_ne_nil _ _
      have hc : c.length % 16 = 0 := by
        apply h c
        rw [List.dropLast_cons_of_ne_nil htne]
        exact List.mem_cons_self _ _
      have hrest : ∀ c2 ∈ t.dropLast, c2.length % 16 = 0 := by
        intro c3 hc3
        apply h c3
        rw [List.dropLast_cons_of_ne_nil htne]
        exact List.mem_cons_of_mem _ hc3
      rw [List.map_cons, List.flatten_cons, List.flatten_cons, ih hrest,
        padIfNeeded_append t.flatten hc,
        ecb_append B (c.length / 16) c (padIfNeeded t.flatten) (by omega),
        padIfNeeded_full hc]

lemma processStream_eq_single (B : List Nat → List Nat) (d : List Nat) :
    processStream B d = ecb B (padIfNeeded d) := by
  unfold processStream fedChunks
  rw [List.map_map,
    show (ecb B ∘ padIfNeeded) = (fun c => ecb B (padIfNeeded c)) from rfl,
    chunked_cipher_eq B (chunkStream d) (fun c hc => by
      rw [chunkStream_dropLast_full d.length d le_rfl c hc]
      decide),
    chunkStream_flatten]

-- ===================================================================
-- Claim theorems C9, C2
-- ===================================================================

/-- Claim C9: the ciphertext of the chunked encryption loop does not
depend on the chunking chosen, provided every chunk boundary except
possibly the final one falls on a multiple of 16: any such chunk list
equals the whole-input single-chunk reference, and in particular the
16 KiB-chunk loop of `encrypt_to_ozip` (`processStream`) does. -/
theorem c9_chunking_has_no_effect (B : List Nat → List Nat)
    (cs : List (List Nat)) (d : List Nat)
    (hjoin : cs.flatten = d)
    (hmid : ∀ c ∈ cs.dropLast, c.length % 16 = 0) :
    (cs.map (fun c => ecb B (padIfNeeded c))).flatten = ecb B (padIfNeeded d) ∧
      processStream B d = ecb B (padIfNeeded d) := by
  constructor
  · rw [chunked_cipher_eq B cs hmid, hjoin]
  · exact processStream_eq_single B d

/-- Claim C9 witness: a two-chunk split of a 21-byte input equals the
single-chunk reference under a concrete block permutation. -/
theorem c9_chunking_has_no_effect_witness :
    ((([List.replicate 16 1, List.replicate 5 2] : List (List Nat)).map
        (fun c => ecb List.reverse (padIfNeeded c))).flatten
      = ecb List.reverse (padIfNeeded (List.replicate 16 1 ++ List.replicate 5 2))) ∧
    processStream List.reverse (List.replicate 16 1 ++ List.replicate 5 2)
      = ecb List.reverse (padIfNeeded (List.replicate 16 1 ++ List.replicate 5 2)) :=
  c9_chunking_has_no_effect List.reverse [List.replicate 16 1, List.replicate 5 2]
    (List.replicate 16 1 ++ List.replicate 5 2) (by decide) (by decide)

/-- Claim C2 counterexample: the claim says the trailing partial chunk is
zero-extended to the 16-byte boundary.  The code calls
`Crypto.Util.Padding.pad` (PKCS#7): for a 15-byte chunk the fed chunk
gains one byte of value 1, not 0. -/
theorem c2_counterexample :
    fedChunks (List.replicate 15 2) = [List.replicate 15 2 ++ [1]] ∧
      (List.replicate 15 2 ++ [1]).getD 15 0 ≠ 0 := by
  decide

/-- Claim C2 (amended): for every input whose length is not a multiple of
16, both cipher loops feed all full 16 KiB chunks to the cipher
unchanged and extend the trailing partial chunk to the 16-byte boundary
with PKCS#7 filler: `n = 16 - len % 16` bytes, each of value `n` (which
is nonzero), not zero bytes. -/
theorem c2_trailing_chunk_pkcs7 : ∀ (N : Nat) (d : List Nat), d.length ≤ N →
    d.length % 16 ≠ 0 →
    fedChunks d = (chunkStream d).dropLast
        ++ [d.drop (cipherChunkSize * (d.length / cipherChunkSize))
            ++ List.replicate (16 - d.length % 16) (16 - d.length % 16)] ∧
      0 < 16 - d.length % 16 := by
  intro N
  induction N with
  | zero =>
    intro d h hmod
    have hd : d = [] := List.eq_nil_of_length_eq_zero (Nat.le_zero.mp h)
    subst hd
    simp at hmod
  | succ N ih =>
    intro d h hmod
    have hC : cipherChunkSize = 16384 := rfl
    refine ⟨?_, by omega⟩
    have hdne : d ≠ [] := by
      intro hn
      subst hn
      simp at hmod
    by_cases hlt : d.length ≤ cipherChunkSize
    · have hstrict : d.length < cipherChunkSize := by
        rcases Nat.lt_or_ge d.length cipherChunkSize with hx | hx
        · exact hx
        · exfalso
          have : d.length = cipherChunkSize := by omega
          rw [this] at hmod
          exact hmod (by rw [hC])
      have hchunk : chunkStream d = [d] := by
        rw [chunkStream_cons hdne, List.take_of_length_le (by omega),
          List.drop_eq_nil_of_le (by omega)]
        rfl
      rw [hchunk]
      unfold fedChunks
      rw [hchunk]
      simp only [List.map_cons, List.map_nil, List.dropLast_single, List.nil_append]
      rw [show d.length / cipherChunkSize = 0 from by rw [hC]; omega,
        Nat.mul_zero, List.drop_zero]
      unfold padIfNeeded pkcs7pad
      rw [if_pos hmod]
    · have hgt : cipherChunkSize < d.length := by omega
      have hdrop_len : (d.drop cipherChunkSize).length = d.length - cipherChunkSize := by
        rw [List.length_drop]
      have hdrop_mod : (d.drop cipherChunkSize).length % 16 = d.length % 16 := by
        rw [hdrop_len]
        omega
      obtain ⟨htail, -⟩ := ih (d.drop cipherChunkSize)
        (by rw [hdrop_len]; omega) (by rw [hdrop_mod]; exact hmod)
      have hrestne : chunkStream (d.drop cipherChunkSize) ≠ [] := by
        rw [ne_eq, chunkStream_eq_nil_iff]
        intro hn
        have := congrArg List.length hn
        rw [hdrop_len, List.length_nil] at this
        omega
      have htake : (d.take cipherChunkSize).length = cipherChunkSize := by
        rw [List.length_take]
        omega
      have hlast : List.drop (cipherChunkSize
            * ((List.drop cipherChunkSize d).length / cipherChunkSize))
            (List.drop cipherChunkSize d)
          = List.drop (cipherChunkSize * (d.length / cipherChunkSize)) d := by
        rw [hdrop_len, List.drop_drop]
        congr 1
        rw [hC]
        omega
      unfold fedChunks
      rw [chunkStream_cons hdne, List.map_cons, List.dropLast_cons_of_ne_nil hrestne]
      rw [padIfNeeded_full (by rw [htake, hC])]
      unfold fedChunks at htail
      rw [htail, hdrop_mod, hlast, List.cons_append]

-- ===================================================================
-- Key-trial lemmas and claim theorems C3, C7
-- ===================================================================

lemma tryKeys_all_fail (B : String → List Nat → List Nat) (body : List Nat) :
    ∀ ks : List String,
      (∀ k ∈ ks, (processStream (B k) body).take 4 ≠ zipMagicBytes) →
      tryKeys B body ks = .error .keyExhausted := by
  intro ks
  induction ks with
  | nil => intro _; rfl
  | cons k t ih =>
    intro h
    unfold tryKeys
    rw [if_neg (h k (List.mem_cons_self _ _)),
      ih (fun k2 hk2 => h k2 (List.mem_cons_of_mem _ hk2))]

lemma tryKeys_first (B : String → List Nat → List Nat) (body : List Nat) :
    ∀ (pre : List String) (k : String) (post : List String),
      (∀ k2 ∈ pre, (processStream (B k2) body).take 4 ≠ zipMagicBytes) →
      (processStream (B k) body).take 4 = zipMagicBytes →
      tryKeys B body (pre ++ k :: post) = .ok (k, processStream (B k) body) := by
  intro pre
  induction pre with
  | nil =>
    intro k post _ hk
    rw [List.nil_append]
    unfold tryKeys
    rw [if_pos hk]
  | cons k2 t ih =>
    intro k post hpre hk
    rw [List.cons_append]
    unfold tryKeys
    rw [if_neg (hpre k2 (List.mem_cons_self _ _)),
      ih k post (fun k3 hk3 => hpre k3 (List.mem_cons_of_mem _ hk3)) hk]

lemma tryKeys_ne_tooSmall (B : String → List Nat → List Nat) (body : List Nat) :
    ∀ ks : List String, tryKeys B body ks ≠ .error .tooSmall := by
  intro ks
  induction ks with
  | nil =>
    intro h
    injection h with h2
    exact OzipError.noConfusion h2
  | cons k t ih =>
    unfold tryKeys
    split
    · intro h
      exact Except.noConfusion h
    · exact ih

/-- Claim C3: trial decryption tries the registry keys strictly in order,
validates by comparing the first 4 decrypted bytes with the ZIP magic,
returns on the first validating key with later keys never attempted (the
result is unchanged under any modification of the cipher's behaviour on
the keys after the winner), and fails with key exhaustion exactly when
no registry key validates. -/
theorem c3_trial_order_and_exhaustion
    (B B2 : String → List Nat → List Nat) (file : List Nat)
    (pre : List String) (k : String) (post : List String) :
    (KEYS = pre ++ k :: post →
      headerSize ≤ file.length →
      (∀ k2 ∈ pre, (processStream (B k2) (file.drop headerSize)).take 4 ≠ zipMagicBytes) →
      (processStream (B k) (file.drop headerSize)).take 4 = zipMagicBytes →
      (∀ k2 ∈ pre ++ [k], B2 k2 = B k2) →
      decrypt_ozip B file = .ok (k, processStream (B k) (file.drop headerSize)) ∧
      decrypt_ozip B2 file = .ok (k, processStream (B k) (file.drop headerSize))) ∧
    ((∀ k2 ∈ KEYS, (processStream (B k2) (file.drop headerSize)).take 4 ≠ zipMagicBytes) →
      headerSize ≤ file.length →
      decrypt_ozip B file = .error .keyExhausted) := by
  constructor
  · intro hkeys hlen hpre hk hagree
    have hnl : ¬ file.length < headerSize := by omega
    have hkmem : k ∈ pre ++ [k] := List.mem_append.mpr (Or.inr (List.mem_singleton.mpr rfl))
    constructor
    · unfold decrypt_ozip
      rw [if_neg hnl, hkeys, tryKeys_first B _ pre k post hpre hk]
    · unfold decrypt_ozip
      rw [if_neg hnl, hkeys]
      have hpre2 : ∀ k2 ∈ pre,
          (processStream (B2 k2) (file.drop headerSize)).take 4 ≠ zipMagicBytes := by
        intro k2 hk2
        rw [hagree k2 (List.mem_append.mpr (Or.inl hk2))]
        exact hpre k2 hk2
      have hk2 : (processStream (B2 k) (file.drop headerSize)).take 4 = zipMagicBytes := by
        rw [hagree k hkmem]
        exact hk
      rw [tryKeys_first B2 _ pre k post hpre2 hk2, hagree k hkmem]
  · intro hall hlen
    unfold decrypt_ozip
    rw [if_neg (by omega), tryKeys_all_fail B _ KEYS hall]

/-- Claim C3 witness: a cipher for which exactly the third registry key
yields the ZIP magic is decoded with that key under any agreeing cipher,
and a cipher validating no key exhausts the registry. -/
theorem c3_trial_order_and_exhaustion_witness :
    ((decrypt_ozip
        (fun kh block => if kh = "d6dccf0ad5acd4e0292e522db7c1381e"
          then zipMagicBytes ++ List.replicate 12 0 else block)
        (List.replicate headerSize 0 ++ List.replicate 16 5)
      = .ok ("d6dccf0ad5acd4e0292e522db7c1381e",
          processStream
            ((fun kh block => if kh = "d6dccf0ad5acd4e0292e522db7c1381e"
              then zipMagicBytes ++ List.replicate 12 0 else block)
              "d6dccf0ad5acd4e0292e522db7c1381e")
            ((List.replicate headerSize 0 ++ List.replicate 16 5).drop headerSize))) ∧
      (decrypt_ozip
        (fun kh block => if kh = "d6dccf0ad5acd4e0292e522db7c1381e"
          then zipMagicBytes ++ List.replicate 12 0 else block)
        (List.replicate headerSize 0 ++ List.replicate 16 5)
      = .ok ("d6dccf0ad5acd4e0292e522db7c1381e",
          processStream
            ((fun kh block => if kh = "d6dccf0ad5acd4e0292e522db7c1381e"
              then zipMagicBytes ++ List.replicate 12 0 else block)
              "d6dccf0ad5acd4e0292e522db7c1381e")
            ((List.replicate headerSize 0 ++ List.replicate 16 5).drop headerSize)))) ∧
    decrypt_ozip (fun _ block => block)
        (List.replicate headerSize 0 ++ List.replicate 16 5)
      = .error .keyExhausted := by
  have hdrop : (List.replicate headerSize (0 : Nat) ++ List.replicate 16 5).drop headerSize
      = List.replicate 16 5 := by
    rw [List.drop_append_of_le_length (le_of_eq (List.length_replicate _ _).symm),
      List.drop_replicate, Nat.sub_self, List.replicate_zero, List.nil_append]
  constructor
  · exact (c3_trial_order_and_exhaustion
      (fun kh block => if kh = "d6dccf0ad5acd4e0292e522db7c1381e"
        then zipMagicBytes ++ List.replicate 12 0 else block)
      (fun kh block => if kh = "d6dccf0ad5acd4e0292e522db7c1381e"
        then zipMagicBytes ++ List.replicate 12 0 else block)
      (List.replicate headerSize 0 ++ List.replicate 16 5)
      ["d6eecf0ae5acd4e0e9fe522de7ce381e", "d6eccf0ae5acd4e0e92e522de7c1381e"]
      "d6dccf0ad5acd4e0292e522db7c1381e" (KEYS.drop 3)).1
      (by decide)
      (by rw [List.length_append, List.length_replicate, List.length_replicate]; omega)
      (by simp only [hdrop]; decide) (by simp only [hdrop]; decide)
      (fun _ _ => rfl)
  · exact (c3_trial_order_and_exhaustion (fun _ block => block) (fun _ block => block)
      (List.replicate headerSize 0 ++ List.replicate 16 5) [] "" []).2
      (by simp only [hdrop]; decide)
      (by rw [List.length_append, List.length_replicate, List.length_replicate]; omega)

/-- Claim C7: container decode fails with the too-small error exactly
when the input is shorter than the 0x1050-byte header, and a mismatched
12-byte magic alone never makes decode fail: the result depends only on
the length and the bytes after offset 12, so decryption is attempted
whatever the magic holds. -/
theorem c7_too_small_iff_and_magic_ignored
    (B : String → List Nat → List Nat) (file file2 : List Nat) :
    (decrypt_ozip B file = .error .tooSmall ↔ file.length < headerSize) ∧
    (file.length = file2.length → file.drop 12 = file2.drop 12 →
      decrypt_ozip B file = decrypt_ozip B file2) := by
  constructor
  · constructor
    · intro h
      by_contra hlen
      unfold decrypt_ozip at h
      rw [if_neg hlen] at h
      exact tryKeys_ne_tooSmall B _ KEYS h
    · intro h
      unfold decrypt_ozip
      rw [if_pos h]
  · intro hlen hdrop
    have hbody : file.drop headerSize = file2.drop headerSize := by
      rw [show headerSize = 12 + 4164 from rfl, ← List.drop_drop, ← List.drop_drop, hdrop]
    unfold decrypt_ozip
    rw [hlen, hbody]

/-- Claim C7 witness: two header-size inputs differing only in their
first 12 bytes decode identically. -/
theorem c7_too_small_iff_and_magic_ignored_witness :
    ((decrypt_ozip (fun _ block => block) (List.replicate 4176 1) = .error .tooSmall
        ↔ (List.replicate 4176 (1 : Nat)).length < headerSize) ∧
      decrypt_ozip (fun _ block => block) (List.replicate 4176 1)
        = decrypt_ozip (fun _ block => block)
            (List.replicate 12 9 ++ List.replicate 4164 1)) :=
  ⟨(c7_too_small_iff_and_magic_ignored (fun _ block => block)
      (List.replicate 4176 1) (List.replicate 12 9 ++ List.replicate 4164 1)).1,
    (c7_too_small_iff_and_magic_ignored (fun _ block => block)
      (List.replicate 4176 1) (List.replicate 12 9 ++ List.replicate 4164 1)).2
      (by rw [List.length_replicate, List.length_append, List.length_replicate,
            List.length_replicate])
      (by rw [List.drop_replicate,
            List.drop_append_of_le_length (le_of_eq (List.length_replicate _ _).symm),
            List.drop_replicate, Nat.sub_self, List.replicate_zero, List.nil_append])⟩

/-- Claim C2 amended witness: a 15-byte input is fed as one chunk padded
with a single PKCS#7 byte of value 1. -/
theorem c2_trailing_chunk_pkcs7_witness :
    (fedChunks (List.replicate 15 3) = (chunkStream (List.replicate 15 3)).dropLast
        ++ [(List.replicate 15 3).drop
              (cipherChunkSize * ((List.replicate 15 3).length / cipherChunkSize))
            ++ List.replicate (16 - (List.replicate 15 3).length % 16)
                (16 - (List.replicate 15 3).length % 16)] ∧
      0 < 16 - (List.replicate 15 3).length % 16) :=
  c2_trailing_chunk_pkcs7 15 (List.replicate 15 3) (by decide) (by decide)

end Ozip
